import Mathlib

/-!
# AIGis transformation-engine verification

Shallow embedding of the AIGis gateway core (Go) and proofs about it.

Strings are modelled as `List Char`.  Go's `regexp` package implements
Perl-style leftmost-first matching; the patterns used by the scanner are
embedded as `Pat` terms and evaluated by a backtracking matcher with
exactly that priority order (greedy quantifiers, ordered alternation,
`\b` word boundaries).  `crypto/sha256` is embedded as the FIPS-180-4
compression function over `Nat`, reduced `% 2^32` where the Go code uses
`uint32`.
-/

namespace AIGis

abbrev Str := List Char

/-- Go `regexp` word characters: `[0-9A-Za-z_]` (used by `\b`). -/
def isWordChar (c : Char) : Bool :=
  c.isAlphanum || c = '_'

/-- Go `\s`: `[\t\n\f\r ]`. -/
def isSpaceChar (c : Char) : Bool :=
  c = ' ' || c = '\t' || c = '\n' || c = '\x0c' || c = '\r'

/-- `\b` holds between two positions whose word-ness differ; outside the
string counts as non-word. -/
def atBoundary (prev : Option Char) (s : Str) : Bool :=
  let pw := match prev with | some c => isWordChar c | none => false
  let nw := match s with | c :: _ => isWordChar c | [] => false
  pw != nw

/-- Regular-expression fragments appearing in the scanner's patterns.
`repE n f` is `f{n}`, `repGe n f` is `f{n,}` (greedy), `opt` is a greedy
`?`, `alt` is ordered alternation, `wb` is `\b`. -/
inductive Pat where
  | lit   : Str → Pat
  | cls   : (Char → Bool) → Pat
  | seq   : Pat → Pat → Pat
  | alt   : Pat → Pat → Pat
  | opt   : Pat → Pat
  | repE  : Nat → (Char → Bool) → Pat
  | repGe : Nat → (Char → Bool) → Pat
  | wb    : Pat

/-- Continuation type for the matcher: given the char before the current
position and the remaining input, produce the suffix after a successful
overall match (or `none`). -/
abbrev MK := Option Char → Str → Option Str

/-- Match a literal. -/
def matchLit : Str → Option Char → Str → MK → Option Str
  | [], prev, s, k => k prev s
  | c :: cs, _, x :: xs, k => if x = c then matchLit cs (some x) xs k else none
  | _ :: _, _, [], _ => none

/-- Match a character class exactly `n` times. -/
def matchRepE : Nat → (Char → Bool) → Option Char → Str → MK → Option Str
  | 0, _, prev, s, k => k prev s
  | n + 1, f, _, x :: xs, k =>
      if f x then matchRepE n f (some x) xs k else none
  | _ + 1, _, _, [], _ => none

/-- Greedy `f*` continuation: prefer consuming another class char, fall
back to the continuation (this is the backtracking order of a Perl-style
greedy star). -/
def greedyMore (f : Char → Bool) : Option Char → Str → MK → Option Str
  | prev, [], k => k prev []
  | prev, x :: xs, k =>
      if f x then
        match greedyMore f (some x) xs k with
        | some r => some r
        | none => k prev (x :: xs)
      else k prev (x :: xs)

/-- Leftmost-first (Perl-priority) matcher for `Pat`, continuation style. -/
def matchC : Pat → Option Char → Str → MK → Option Str
  | .lit l, prev, s, k => matchLit l prev s k
  | .cls f, _, s, k =>
      match s with
      | [] => none
      | x :: xs => if f x then k (some x) xs else none
  | .seq p q, prev, s, k => matchC p prev s (fun pr rs => matchC q pr rs k)
  | .alt p q, prev, s, k =>
      match matchC p prev s k with
      | some r => some r
      | none => matchC q prev s k
  | .opt p, prev, s, k =>
      match matchC p prev s k with
      | some r => some r
      | none => k prev s
  | .repE n f, prev, s, k => matchRepE n f prev s k
  | .repGe n f, prev, s, k =>
      matchRepE n f prev s (fun pr rs => greedyMore f pr rs k)
  | .wb, prev, s, k => if atBoundary prev s then k prev s else none

/-- Suffix left after matching `p` at the current position, if any. -/
def matchEnd (p : Pat) (prev : Option Char) (s : Str) : Option Str :=
  matchC p prev s (fun _ rs => some rs)

/-- Leftmost match: scan positions left to right; result is
`(gap before the match, matched chars, suffix after the match)`. -/
def findFrom (p : Pat) : Option Char → Str → Option (Str × Str × Str)
  | prev, [] =>
      match matchEnd p prev [] with
      | some rest => some ([], ([] : Str).take (([] : Str).length - rest.length), rest)
      | none => none
  | prev, x :: xs =>
      match matchEnd p prev (x :: xs) with
      | some rest => some ([], (x :: xs).take ((x :: xs).length - rest.length), rest)
      | none =>
          match findFrom p (some x) xs with
          | some (pre, m, r) => some (x :: pre, m, r)
          | none => none

/-- `Regexp.ReplaceAllStringFunc`: repeatedly replace the leftmost match,
resuming after the end of each match.  `fuel` bounds the number of
replacements (the patterns used here never match the empty string, but an
empty match advances one char, as Go does). -/
def replaceAll (p : Pat) (f : Str → Str) :
    Nat → Option Char → Str → Str
  | 0, _, s => s
  | fuel + 1, prev, s =>
      match findFrom p prev s with
      | none => s
      | some (pre, m, rest) =>
          match m.getLast? with
          | some lastc => pre ++ f m ++ replaceAll p f fuel (some lastc) rest
          | none =>
              -- empty match: emit replacement, advance one char
              match rest with
              | [] => pre ++ f m
              | x :: xs => pre ++ f m ++ [x] ++ replaceAll p f fuel (some x) xs

/-! ## SHA-256 (`crypto/sha256`), hex encoding, UTF-8 -/

/-- 32-bit truncation (`uint32` arithmetic). -/
def m32 (n : Nat) : Nat := n % 4294967296

def rotr32 (n x : Nat) : Nat := m32 ((x >>> n) ||| (x <<< (32 - n)))

def shr32 (n x : Nat) : Nat := x >>> n

/-- Bitwise complement on 32 bits. -/
def not32 (x : Nat) : Nat := 4294967295 - m32 x

def sigma0 (x : Nat) : Nat := (rotr32 7 x) ^^^ (rotr32 18 x) ^^^ (shr32 3 x)
def sigma1 (x : Nat) : Nat := (rotr32 17 x) ^^^ (rotr32 19 x) ^^^ (shr32 10 x)
def bigS0 (x : Nat) : Nat := (rotr32 2 x) ^^^ (rotr32 13 x) ^^^ (rotr32 22 x)
def bigS1 (x : Nat) : Nat := (rotr32 6 x) ^^^ (rotr32 11 x) ^^^ (rotr32 25 x)
def chF (x y z : Nat) : Nat := (x &&& y) ^^^ ((not32 x) &&& z)
def majF (x y z : Nat) : Nat := (x &&& y) ^^^ (x &&& z) ^^^ (y &&& z)

/-- The 64 SHA-256 round constants. -/
def sha256K : List Nat :=
  [1116352408, 1899447441, 3049323471, 3921009573, 961987163,
   1508970993, 2453635748, 2870763221, 3624381080, 310598401,
   607225278, 1426881987, 1925078388, 2162078206, 2614888103,
   3248222580, 3835390401, 4022224774, 264347078, 604807628,
   770255983, 1249150122, 1555081692, 1996064986, 2554220882,
   2821834349, 2952996808, 3210313671, 3336571891, 3584528711,
   113926993, 338241895, 666307205, 773529912, 1294757372,
   1396182291, 1695183700, 1986661051, 2177026350, 2456956037,
   2730485921, 2820302411, 3259730800, 3345764771, 3516065817,
   3600352804, 4094571909, 275423344, 430227734, 506948616,
   659060556, 883997877, 958139571, 1322822218, 1537002063,
   1747873779, 1955562222, 2024104815, 2227730452, 2361852424,
   2428436474, 2756734187, 3204031479, 3329325298]

def sha256H0 : List Nat :=
  [1779033703, 3144134277, 1013904242, 2773480762,
   1359893119, 2600822924, 528734635, 1541459225]

/-- Message schedule: extend 16 words to 64. -/
def schedExtend : Nat → List Nat → List Nat
  | 0, w => w.reverse
  | n + 1, w =>
      -- w holds the schedule so far, most recent first
      let g := fun i => w.getD (i - 1) 0
      let nw := m32 (sigma1 (g 2) + g 7 + sigma0 (g 15) + g 16)
      schedExtend n (nw :: w)

def schedule (block : List Nat) : List Nat :=
  schedExtend 48 block.reverse

/-- One compression round. -/
def round256 (st : List Nat) (kw : Nat × Nat) : List Nat :=
  match st with
  | [a, b, c, d, e, f, g, h] =>
      let t1 := m32 (h + bigS1 e + chF e f g + kw.1 + kw.2)
      let t2 := m32 (bigS0 a + majF a b c)
      [m32 (t1 + t2), a, b, c, m32 (d + t1), e, f, g]
  | st => st

def compress (h : List Nat) (block : List Nat) : List Nat :=
  let w := schedule block
  let st := (sha256K.zip w).foldl round256 h
  (h.zip st).map (fun p => m32 (p.1 + p.2))

/-- Split bytes into 32-bit big-endian words. -/
def toWords : List Nat → List Nat
  | b0 :: b1 :: b2 :: b3 :: rest =>
      (((b0 * 256 + b1) * 256 + b2) * 256 + b3) :: toWords rest
  | _ => []

def chunks64Go : Nat → List Nat → List (List Nat)
  | 0, _ => []
  | _, [] => []
  | n + 1, bs => bs.take 64 :: chunks64Go n (bs.drop 64)

/-- Split a byte list into 64-byte blocks. -/
def chunks64 (bs : List Nat) : List (List Nat) :=
  chunks64Go (bs.length + 1) bs

/-- SHA-256 padding: `0x80`, zeros, 64-bit big-endian bit length. -/
def sha256Pad (msg : List Nat) : List Nat :=
  let L := msg.length
  let padZeros := (55 + 64 - (L % 64)) % 64
  let bitLen := L * 8
  msg ++ [0x80] ++ List.replicate padZeros 0 ++
    (List.range 8).map (fun i => bitLen / (256 ^ (7 - i)) % 256)

/-- Big-endian bytes of a 32-bit word. -/
def wordBytes (w : Nat) : List Nat :=
  [w / 16777216 % 256, w / 65536 % 256, w / 256 % 256, w % 256]

/-- SHA-256 digest (32 bytes) of a byte list. -/
def sha256 (msg : List Nat) : List Nat :=
  let blocks := (chunks64 (sha256Pad msg)).map toWords
  ((blocks.foldl compress sha256H0).map wordBytes).flatten

def hexDigit (n : Nat) : Char :=
  if n < 10 then Char.ofNat (48 + n) else Char.ofNat (87 + n)

/-- `encoding/hex.EncodeToString`: lowercase hex. -/
def hexEncode (bytes : List Nat) : Str :=
  bytes.foldr (fun b acc => hexDigit (b / 16) :: hexDigit (b % 16) :: acc) []

/-- UTF-8 encoding of a character list (Go strings are UTF-8 bytes). -/
def utf8Char (c : Char) : List Nat :=
  let n := c.toNat
  if n < 0x80 then [n]
  else if n < 0x800 then [0xc0 + n / 64, 0x80 + n % 64]
  else if n < 0x10000 then
    [0xe0 + n / 4096, 0x80 + n / 64 % 64, 0x80 + n % 64]
  else
    [0xf0 + n / 262144, 0x80 + n / 4096 % 64, 0x80 + n / 64 % 64, 0x80 + n % 64]

def utf8 (s : Str) : List Nat := (s.map utf8Char).flatten

/-! ## Scanner (`internal/core/security/scanner.go`) -/

/-- One sensitive-data detection rule (`Rule`). -/
structure Rule where
  name : Str
  pattern : Pat
  replacement : Str

def isUpperAlpha (c : Char) : Bool := 'A' ≤ c && c ≤ 'Z'
def isDigitCh (c : Char) : Bool := '0' ≤ c && c ≤ '9'
def isAlnumCh (c : Char) : Bool := c.isAlphanum
def isUpperOrDigit (c : Char) : Bool := isUpperAlpha c || isDigitCh c
def isUpperOrSpace (c : Char) : Bool := isUpperAlpha c || c = ' '
def isGoogleKeyChar (c : Char) : Bool := isAlnumCh c || c = '-' || c = '_'
def isEmailLocalChar (c : Char) : Bool :=
  isAlnumCh c || c = '.' || c = '_' || c = '%' || c = '+' || c = '-'
def isEmailDomainChar (c : Char) : Bool := isAlnumCh c || c = '.' || c = '-'
def isAlphaCh (c : Char) : Bool := c.isAlpha
def isPhoneStart (c : Char) : Bool := '3' ≤ c && c ≤ '9'
def isHexLower (c : Char) : Bool := isDigitCh c || ('a' ≤ c && c ≤ 'f')

/-- `-----BEGIN [A-Z ]+ PRIVATE KEY-----` -/
def privateKeyPat : Pat :=
  .seq (.lit "-----BEGIN ".data)
    (.seq (.repGe 1 isUpperOrSpace) (.lit " PRIVATE KEY-----".data))

/-- `\bAKIA[0-9A-Z]{16}\b` -/
def awsKeyPat : Pat :=
  .seq .wb (.seq (.lit "AKIA".data) (.seq (.repE 16 isUpperOrDigit) .wb))

/-- `\bsk-(?:proj-)?[a-zA-Z0-9]{20,}\b` -/
def openaiKeyPat : Pat :=
  .seq .wb (.seq (.lit "sk-".data)
    (.seq (.opt (.lit "proj-".data)) (.seq (.repGe 20 isAlnumCh) .wb)))

/-- `\b(ghp|gho|ghu|ghs|ghr)_[a-zA-Z0-9]{36}\b` -/
def githubTokenPat : Pat :=
  .seq .wb (.seq
    (.alt (.lit "ghp".data) (.alt (.lit "gho".data)
      (.alt (.lit "ghu".data) (.alt (.lit "ghs".data) (.lit "ghr".data)))))
    (.seq (.lit "_".data) (.seq (.repE 36 isAlnumCh) .wb)))

/-- `\bAIza[0-9A-Za-z-_]{35}\b` -/
def googleKeyPat : Pat :=
  .seq .wb (.seq (.lit "AIza".data) (.seq (.repE 35 isGoogleKeyChar) .wb))

/-- `[a-zA-Z0-9._%+-]+@[a-zA-Z0-9.-]+\.[a-zA-Z]{2,}` -/
def emailPat : Pat :=
  .seq (.repGe 1 isEmailLocalChar)
    (.seq (.lit "@".data)
      (.seq (.repGe 1 isEmailDomainChar)
        (.seq (.lit ".".data) (.repGe 2 isAlphaCh))))

/-- `\b(?:\+?86)?\s*(?:1[3-9]\d{9})\b` -/
def phonePat : Pat :=
  .seq .wb (.seq
    (.opt (.seq (.opt (.lit "+".data)) (.lit "86".data)))
    (.seq (.repGe 0 isSpaceChar)
      (.seq (.lit "1".data)
        (.seq (.cls isPhoneStart) (.seq (.repE 9 isDigitCh) .wb)))))

/-- The built-in rules registered by `NewScanner`, in evaluation order. -/
def scannerRules : List Rule :=
  [⟨"Private Key".data, privateKeyPat, "[PRIVATE_KEY_REDACTED]".data⟩,
   ⟨"AWS Access Key".data, awsKeyPat, "[AWS_AK_REDACTED]".data⟩,
   ⟨"OpenAI API Key".data, openaiKeyPat, "[OPENAI_KEY_REDACTED]".data⟩,
   ⟨"GitHub Token".data, githubTokenPat, "[GITHUB_TOKEN_REDACTED]".data⟩,
   ⟨"Google API Key".data, googleKeyPat, "[GOOGLE_KEY_REDACTED]".data⟩,
   ⟨"Email".data, emailPat, "[EMAIL_REDACTED]".data⟩,
   ⟨"Mobile Phone".data, phonePat, "[PHONE_REDACTED]".data⟩]

/-- One `rule.Pattern.ReplaceAllString(result, rule.Replacement)` pass. -/
def sanitizeRule (s : Str) (r : Rule) : Str :=
  replaceAll r.pattern (fun _ => r.replacement) (s.length + 1) none s

/-- `Scanner.Sanitize`: apply every rule in order. -/
def Sanitize (input : Str) : Str :=
  scannerRules.foldl sanitizeRule input

/-- `generatePlaceholder`: `__AIGIS_SEC_` + first 12 hex chars of
SHA-256 of the UTF-8 bytes + `__`. -/
def generatePlaceholder (original : Str) : Str :=
  "__AIGIS_SEC_".data ++ (hexEncode (sha256 (utf8 original))).take 12
    ++ "__".data

/-- The per-request secret vault (`AIGisContext.secretVault`,
a `map[string]string`). -/
abbrev Vault := List (Str × Str)

/-- `VaultStore`: Go map assignment (overwrite or insert). -/
def vaultStore (v : Vault) (key val : Str) : Vault :=
  if v.any (fun p => p.1 = key) then
    v.map (fun p => if p.1 = key then (p.1, val) else p)
  else v ++ [(key, val)]

/-- One masking pass of a rule: replace each match with its placeholder
and store the mapping (`ReplaceAllStringFunc` body in `Scanner.Mask`). -/
def maskRuleStep (st : Vault × Str) (r : Rule) : Vault × Str :=
  let s := st.2
  let rec go (fuel : Nat) (v : Vault) (prev : Option Char) (s : Str) :
      Vault × Str :=
    match fuel with
    | 0 => (v, s)
    | fuel + 1 =>
        match findFrom r.pattern prev s with
        | none => (v, s)
        | some (pre, m, rest) =>
            let ph := generatePlaceholder m
            let v' := vaultStore v ph m
            match m.getLast? with
            | some lastc =>
                let r2 := go fuel v' (some lastc) rest
                (r2.1, pre ++ ph ++ r2.2)
            | none =>
                match rest with
                | [] => (v', pre ++ ph)
                | x :: xs =>
                    let r2 := go fuel v' (some x) xs
                    (r2.1, pre ++ ph ++ [x] ++ r2.2)
  go (s.length + 1) st.1 none s

/-- Tag filter in `Scanner.Mask`: a rule applies when the tag list is
empty, or contains `"all"` or the rule's name. -/
def ruleApplies (tags : List Str) (r : Rule) : Bool :=
  tags.isEmpty || tags.any (fun t => t = "all".data || t = r.name)

/-- `Scanner.Mask`: sequentially apply all (tag-selected) rules,
threading the vault. -/
def Mask (v : Vault) (input : Str) (tags : List Str) : Vault × Str :=
  scannerRules.foldl
    (fun st r => if ruleApplies tags r then maskRuleStep st r else st)
    (v, input)

inductive Json where
  | null : Json
  | bool : Bool → Json
  | num : Str → Json
  | str : Str → Json
  | arr : List Json → Json
  | obj : List (Str × Json) → Json

/-- JSON whitespace. -/
def isJsonWs (c : Char) : Bool :=
  c = ' ' || c = '\t' || c = '\n' || c = '\r'

def skipWs (s : Str) : Str := s.dropWhile isJsonWs

def hexVal (c : Char) : Option Nat :=
  if '0' ≤ c && c ≤ '9' then some (c.toNat - 48)
  else if 'a' ≤ c && c ≤ 'f' then some (c.toNat - 87)
  else if 'A' ≤ c && c ≤ 'F' then some (c.toNat - 70)
  else none

/-- Parse exactly four hex digits. -/
def parse4Hex : Str → Option (Nat × Str)
  | a :: b :: c :: d :: rest => do
      let va ← hexVal a
      let vb ← hexVal b
      let vc ← hexVal c
      let vd ← hexVal d
      pure (((va * 16 + vb) * 16 + vc) * 16 + vd, rest)
  | _ => none

def mkCharSafe (n : Nat) : Char :=
  if h : n < 0xd800 then ⟨⟨n, by omega⟩, Or.inl h⟩
  else if h2 : 0xe000 ≤ n ∧ n < 0x110000 then ⟨⟨n, by omega⟩, Or.inr h2⟩
  else '�'

/-- JSON string body after the opening quote; handles escapes, `\uXXXX`
and surrogate pairs (lone surrogates decode to U+FFFD, as Go does). -/
def parseStrBody : Nat → Str → Option (Str × Str)
  | 0, _ => none
  | _ + 1, [] => none
  | fuel + 1, c :: rest =>
      if c = '"' then some ([], rest)
      else if c = '\\' then
        match rest with
        | [] => none
        | e :: rest2 =>
            let simpleE : Char → Option Char := fun e =>
              if e = '"' then some '"'
              else if e = '\\' then some '\\'
              else if e = '/' then some '/'
              else if e = 'b' then some '\x08'
              else if e = 'f' then some '\x0c'
              else if e = 'n' then some '\n'
              else if e = 'r' then some '\r'
              else if e = 't' then some '\t'
              else none
            match simpleE e with
            | some d =>
                match parseStrBody fuel rest2 with
                | some (tl, rem) => some (d :: tl, rem)
                | none => none
            | none =>
                if e = 'u' then
                  match parse4Hex rest2 with
                  | none => none
                  | some (n, rest3) =>
                      if 0xd800 ≤ n && n < 0xdc00 then
                        -- possible surrogate pair
                        match rest3 with
                        | '\\' :: 'u' :: rest4 =>
                            match parse4Hex rest4 with
                            | some (n2, rest5) =>
                                if 0xdc00 ≤ n2 && n2 < 0xe000 then
                                  let cp :=
                                    0x10000 + (n - 0xd800) * 0x400 + (n2 - 0xdc00)
                                  match parseStrBody fuel rest5 with
                                  | some (tl, rem) => some (mkCharSafe cp :: tl, rem)
                                  | none => none
                                else
                                  match parseStrBody fuel rest3 with
                                  | some (tl, rem) => some ('�' :: tl, rem)
                                  | none => none
                            | none =>
                                match parseStrBody fuel rest3 with
                                | some (tl, rem) => some ('�' :: tl, rem)
                                | none => none
                        | _ =>
                            match parseStrBody fuel rest3 with
                            | some (tl, rem) => some ('�' :: tl, rem)
                            | none => none
                      else
                        match parseStrBody fuel rest3 with
                        | some (tl, rem) => some (mkCharSafe n :: tl, rem)
                        | none => none
                else none
      else if c.toNat < 0x20 then none
      else
        match parseStrBody fuel rest with
        | some (tl, rem) => some (c :: tl, rem)
        | none => none

/-- Number literal: `-? int frac? exp?`; returns the consumed literal. -/
def parseNumLit (s : Str) : Option (Str × Str) :=
  let takeDigits := fun (t : Str) => (t.takeWhile isDigitCh, t.dropWhile isDigitCh)
  let (neg, s1) := match s with
    | '-' :: t => (['-'], t)
    | _ => ([], s)
  let (ip, s2) := takeDigits s1
  if ip.isEmpty then none
  else if ip.length > 1 && ip.headI = '0' then none
  else
    let (fp, s3) := match s2 with
      | '.' :: t =>
          let (ds, r) := takeDigits t
          if ds.isEmpty then ([], s2) else ('.' :: ds, r)
      | _ => ([], s2)
    let (ep, s4) := match s3 with
      | e :: t =>
          if e = 'e' || e = 'E' then
            let (sg, t2) := match t with
              | '+' :: u => (['+'], u)
              | '-' :: u => (['-'], u)
              | _ => ([], t)
            let (ds, r) := takeDigits t2
            if ds.isEmpty then ([], s3) else (e :: sg ++ ds, r)
          else ([], s3)
      | _ => ([], s3)
    some (neg ++ ip ++ fp ++ ep, s4)

/-- Comma-separated array elements, given a value parser `pv`. -/
def parseElems (pv : Str → Option (Json × Str)) :
    Nat → Str → Option (List Json × Str)
  | 0, _ => none
  | fu + 1, s =>
      match pv s with
      | none => none
      | some (v, r) =>
          match skipWs r with
          | ',' :: r2 =>
              match parseElems pv fu r2 with
              | some (vs, r3) => some (v :: vs, r3)
              | none => none
          | ']' :: r2 => some ([v], r2)
          | _ => none

/-- Comma-separated object members, given a value parser `pv`. -/
def parseMembs (pv : Str → Option (Json × Str)) :
    Nat → Str → Option (List (Str × Json) × Str)
  | 0, _ => none
  | fu + 1, s =>
      match skipWs s with
      | '"' :: r =>
          match parseStrBody (r.length + 1) r with
          | none => none
          | some (key, r2) =>
              match skipWs r2 with
              | ':' :: r3 =>
                  match pv r3 with
                  | none => none
                  | some (v, r4) =>
                      match skipWs r4 with
                      | ',' :: r5 =>
                          match parseMembs pv fu r5 with
                          | some (ms, r6) => some ((key, v) :: ms, r6)
                          | none => none
                      | '}' :: r5 => some ([(key, v)], r5)
                      | _ => none
              | _ => none
      | _ => none

/-- Recursive-descent JSON value parser with fuel. -/
def parseValue : Nat → Str → Option (Json × Str)
  | 0, _ => none
  | fuel + 1, s =>
      match skipWs s with
      | [] => none
      | c :: rest =>
          if c = 'n' then
            match rest with
            | 'u' :: 'l' :: 'l' :: r => some (.null, r)
            | _ => none
          else if c = 't' then
            match rest with
            | 'r' :: 'u' :: 'e' :: r => some (.bool true, r)
            | _ => none
          else if c = 'f' then
            match rest with
            | 'a' :: 'l' :: 's' :: 'e' :: r => some (.bool false, r)
            | _ => none
          else if c = '"' then
            match parseStrBody (rest.length + 1) rest with
            | some (str, r) => some (.str str, r)
            | none => none
          else if c = '[' then
            match skipWs rest with
            | ']' :: r => some (.arr [], r)
            | _ =>
                match parseElems (parseValue fuel) (rest.length + 1) rest with
                | some (vs, r) => some (.arr vs, r)
                | none => none
          else if c = '{' then
            match skipWs rest with
            | '}' :: r => some (.obj [], r)
            | _ =>
                match parseMembs (parseValue fuel) (rest.length + 1) rest with
                | some (ms, r) => some (.obj ms, r)
                | none => none
          else
            match parseNumLit (c :: rest) with
            | some (lit, r) => some (.num lit, r)
            | none => none

/-- Parse a whole body (`sonic.Get` / `sonic.Unmarshal` entry point);
`none` models a parse error. -/
def parseJson (s : Str) : Option Json :=
  match parseValue (s.length + 1) s with
  | some (j, rest) => if skipWs rest = [] then some j else none
  | none => none

/-- JSON string escaping for serialization. -/
def renderStrBody (s : Str) : Str :=
  s.foldr
    (fun c acc =>
      if c = '"' then '\\' :: '"' :: acc
      else if c = '\\' then '\\' :: '\\' :: acc
      else if c = '\n' then '\\' :: 'n' :: acc
      else if c = '\r' then '\\' :: 'r' :: acc
      else if c = '\t' then '\\' :: 't' :: acc
      else if c.toNat < 0x20 then
        '\\' :: 'u' :: '0' :: '0' :: hexDigit (c.toNat / 16)
          :: hexDigit (c.toNat % 16) :: acc
      else c :: acc)
    []

mutual

/-- Compact serialization (`ast.Node.MarshalJSON`). -/
def render : Json → Str
  | .null => "null".data
  | .bool true => "true".data
  | .bool false => "false".data
  | .num lit => lit
  | .str s => '"' :: renderStrBody s ++ ['"']
  | .arr es => '[' :: renderElems es ++ [']']
  | .obj ms => '{' :: renderMembs ms ++ ['}']

def renderElems : List Json → Str
  | [] => []
  | [e] => render e
  | e :: es => render e ++ [','] ++ renderElems es

def renderMembs : List (Str × Json) → Str
  | [] => []
  | [(k, v)] => '"' :: renderStrBody k ++ ['"', ':'] ++ render v
  | (k, v) :: ms =>
      '"' :: renderStrBody k ++ ['"', ':'] ++ render v ++ [','] ++ renderMembs ms

end

/-- `ast.Node.Get(key)`: first field with the given key of an object. -/
def jsonGet (j : Json) (key : Str) : Option Json :=
  match j with
  | .obj ms => (ms.find? (fun p => p.1 = key)).map (·.2)
  | _ => none

/-- `sonic` `Node.String()` with the error discarded: strings decode,
numbers keep their source literal, `true`/`false`/`null` cast to
`true`/`false`/the empty string; objects and arrays (whose `String()`
returns an error) yield the empty string. -/
def nodeString (j : Json) : Str :=
  match j with
  | .str s => s
  | .num lit => lit
  | .bool true => "true".data
  | .bool false => "false".data
  | .null => []
  | _ => []

/-- The engine's value extraction in `FindRoute`: `node.String()`, and
on its error (objects and arrays) the `Raw()` fallback — the value's
original source bytes. -/
def nodeStringOrRaw (j : Json) (raw : Str) : Str :=
  match j with
  | .obj _ => raw
  | .arr _ => raw
  | j => nodeString j

/-- Textual scan of the members of a root JSON object for the first
member named `key`, returning the parsed value together with its raw
source slice (`Node.Raw()` returns the value's original bytes,
whitespace and escapes intact). -/
def rawGetGo : Nat → Str → Str → Option (Json × Str)
  | 0, _, _ => none
  | fuel + 1, s, key =>
      match skipWs s with
      | '"' :: rest =>
          match parseStrBody (rest.length + 1) rest with
          | none => none
          | some (k, r1) =>
              match skipWs r1 with
              | ':' :: r2 =>
                  let vstart := skipWs r2
                  match parseValue (vstart.length + 1) vstart with
                  | none => none
                  | some (j, rem) =>
                      if k = key then
                        some (j, vstart.take (vstart.length - rem.length))
                      else
                        match skipWs rem with
                        | ',' :: r3 => rawGetGo fuel r3 key
                        | _ => none
              | _ => none
      | _ => none

/-- `root.Get(key)` on the body text (`sonic` lazy AST): `none` when the
root is not an object or the key is absent (`node.Check()` fails). -/
def rawGet (body : Str) (key : Str) : Option (Json × Str) :=
  match skipWs body with
  | '{' :: rest => rawGetGo (rest.length + 1) rest key
  | _ => none

/-- A gjson/sjson path segment that is a pure decimal number (array
index); otherwise it is an object key. -/
def segIdx (seg : Str) : Option Nat :=
  if seg ≠ [] && seg.all isDigitCh then
    some (seg.foldl (fun a c => a * 10 + (c.toNat - 48)) 0)
  else none

def splitPathGo : Str → Str → List Str
  | acc, [] => [acc.reverse]
  | acc, c :: rest =>
      if c = '.' then acc.reverse :: splitPathGo [] rest
      else splitPathGo (c :: acc) rest

/-- Split a dotted path (plain key/index segments — the subset of the
gjson path language the engine's configs use). -/
def splitPath (p : Str) : List Str := splitPathGo [] p

/-- `gjson.GetBytes` on a plain dotted path. -/
def getPath : Json → List Str → Option Json
  | j, [] => some j
  | .obj ms, seg :: rest =>
      match (ms.find? (fun p => p.1 = seg)).map (·.2) with
      | some v => getPath v rest
      | none => none
  | .arr es, seg :: rest =>
      match segIdx seg with
      | some i =>
          match es.get? i with
          | some v => getPath v rest
          | none => none
      | none => none
  | _, _ :: _ => none

/-- Build nested objects for the missing tail of a path (sjson creates
intermediate containers for absent paths). -/
def buildNew (path : List Str) (v : Json) : Json :=
  path.foldr (fun seg acc => .obj [(seg, acc)]) v

/-- Replace the value of the first field with the given key. -/
def setFirstField (ms : List (Str × Json)) (seg : Str) (f : Json → Json) :
    List (Str × Json) :=
  match ms with
  | [] => []
  | (k, v) :: t =>
      if k = seg then (k, f v) :: t else (k, v) :: setFirstField t seg f

/-- `sjson.SetBytes` on a plain dotted path: replaces existing values,
appends new object keys, replaces array slots in range and pads with
`null` beyond the end; non-container intermediates are overwritten. -/
def setPath : Json → List Str → Json → Json
  | _, [], v => v
  | .obj ms, seg :: rest, v =>
      if ms.any (fun p => p.1 = seg) then
        .obj (setFirstField ms seg (fun old => setPath old rest v))
      else .obj (ms ++ [(seg, buildNew rest v)])
  | .arr es, seg :: rest, v =>
      match segIdx seg with
      | some i =>
          if h : i < es.length then
            .arr (es.set i (setPath (es.get ⟨i, h⟩) rest v))
          else
            .arr (es ++ List.replicate (i - es.length) .null ++ [buildNew rest v])
      | none => .obj [(seg, buildNew rest v)]
  | _, seg :: rest, v => .obj [(seg, buildNew rest v)]

/-! ## HTTP headers (`net/http.Header`, `textproto` canonical keys) -/

/-- `textproto` valid header-field bytes (RFC 7230 token chars). -/
def isTokenCharHdr (c : Char) : Bool :=
  c.isAlphanum || c = '!' || c = '#' || c = '$' || c = '%' || c = '&'
    || c = '\'' || c = '*' || c = '+' || c = '-' || c = '.' || c = '^'
    || c = '_' || c = Char.ofNat 96 || c = '|' || c = '~'

def asciiUpper (c : Char) : Char :=
  if 'a' ≤ c && c ≤ 'z' then Char.ofNat (c.toNat - 32) else c

def asciiLower (c : Char) : Char :=
  if 'A' ≤ c && c ≤ 'Z' then Char.ofNat (c.toNat + 32) else c

def canonGo : Bool → Str → Str
  | _, [] => []
  | upper, c :: rest =>
      let c' := if upper then asciiUpper c else asciiLower c
      c' :: canonGo (c' = '-') rest

/-- `textproto.CanonicalMIMEHeaderKey`: invalid keys pass through
unchanged; valid keys get the first letter and letters after `-`
uppercased, the rest lowercased. -/
def canonicalKey (s : Str) : Str :=
  if s.all isTokenCharHdr then canonGo true s else s

/-- `http.Header`: canonical key → ordered value list. -/
abbrev Header := List (Str × List Str)

def hVals (h : Header) (key : Str) : List Str :=
  (((h.find? (fun p => p.1 = canonicalKey key)).map (·.2)).getD [])

/-- `Header.Get`: first value, or `""`. -/
def hGet (h : Header) (key : Str) : Str :=
  match hVals h key with
  | [] => []
  | v :: _ => v

/-- `Header.Set`. -/
def hSet (h : Header) (key v : Str) : Header :=
  let ck := canonicalKey key
  if h.any (fun p => p.1 = ck) then
    h.map (fun p => if p.1 = ck then (p.1, [v]) else p)
  else h ++ [(ck, [v])]

/-- `Header.Add`. -/
def hAdd (h : Header) (key v : Str) : Header :=
  let ck := canonicalKey key
  if h.any (fun p => p.1 = ck) then
    h.map (fun p => if p.1 = ck then (p.1, p.2 ++ [v]) else p)
  else h ++ [(ck, [v])]

/-- `Header.Del`. -/
def hDel (h : Header) (key : Str) : Header :=
  let ck := canonicalKey key
  h.filter (fun p => p.1 ≠ ck)

/-! ## Route engine (`internal/core/engine`) -/

/-- `engine.Upstream`. -/
structure Upstream where
  baseURL : Str
  path : Str
  authStrategy : Str
  tokenEnv : Str
  headerName : Str

/-- `engine.HeaderPolicy` (`set` is a Go map; modelled as an entry list
in iteration order). -/
structure HeaderPolicy where
  allow : List Str
  set : List (Str × Str)
  remove : List Str

/-- `engine.TransformStep`. -/
structure TransformStep where
  type : Str
  config : List (Str × Str)

/-- `engine.Route`, with the matcher already holding compiled regexes:
a compiled `*regexp.Regexp` is used only through `MatchString`, so it is
embedded as its matching function. -/
structure RouteM where
  id : Str
  matcher : List (Str × (Str → Bool))
  upstream : Upstream
  transforms : List TransformStep
  headerPolicy : HeaderPolicy

/-- Go map assignment on an association list. -/
def assocSet (m : List (Str × α)) (k : Str) (v : α) : List (Str × α) :=
  if m.any (fun p => p.1 = k) then
    m.map (fun p => if p.1 = k then (p.1, v) else p)
  else m ++ [(k, v)]

def assocGet (m : List (Str × α)) (k : Str) : Option α :=
  (m.find? (fun p => p.1 = k)).map (·.2)

/-- `NewEngine`'s pre-compiled matcher map `routeID -> matchers`
(duplicate route IDs overwrite, as Go map assignment does). -/
def buildMatchers (routes : List RouteM) :
    List (Str × List (Str × (Str → Bool))) :=
  routes.foldl (fun m r => assocSet m r.id r.matcher) []

/-- One route's matcher conjunction inside `Engine.FindRoute`: each
matcher reads `root.Get(jsonPath)` from the body text and applies the
regex to `String()`-or-`Raw()` of the node; a missing path fails the
route. -/
def routeMatches (body : Str) (matchers : List (Str × (Str → Bool))) : Bool :=
  matchers.all (fun pm =>
    match rawGet body pm.1 with
    | none => false
    | some (node, raw) => pm.2 (nodeStringOrRaw node raw))

/-- `Engine.FindRoute`: parse the body, then return the first route in
declared order whose every matcher succeeds; `none` when no route
matches; an error only on a parse failure. -/
def findRoute (routes : List RouteM) (body : Str) :
    Except Str (Option RouteM) :=
  match parseJson body with
  | none => .error "failed to parse request body".data
  | some _ =>
      let ms := buildMatchers routes
      .ok (routes.find? (fun r =>
        routeMatches body ((assocGet ms r.id).getD [])))

/-! ## Upstream dispatch: headers and auth
(`UniversalProvider.buildAuthHeaders`, `buildUpstreamHeaders`).
The process environment is passed as a function `env`. -/

/-- `buildAuthHeaders`: empty token ⇒ no auth headers; `bearer` (and any
unrecognized strategy, including `query`) sets `Authorization: Bearer`;
`header` sets the configured header (default `Authorization`). -/
def buildAuthHeaders (env : Str → Str) (u : Upstream) : Header :=
  let token := env u.tokenEnv
  if token = [] then []
  else if u.authStrategy = "bearer".data then
    hSet [] "Authorization".data ("Bearer ".data ++ token)
  else if u.authStrategy = "header".data then
    let hn := if u.headerName = [] then "Authorization".data else u.headerName
    hSet [] hn token
  else
    hSet [] "Authorization".data ("Bearer ".data ++ token)

/-- Step 1 of `buildUpstreamHeaders`: copy one `allow`ed client header
when the client sent a non-empty value. -/
def allowStep (originalHeaders : Header) (h : Header) (name : Str) : Header :=
  let v := hGet originalHeaders name
  if v ≠ [] then hSet h name v else h

/-- Step 2 of `buildUpstreamHeaders`: force-set one entry, expanding
`env:VAR` (dropped when the variable is empty). -/
def setStep (env : Str → Str) (h : Header) (kv : Str × Str) : Header :=
  if kv.2.take 4 = "env:".data then
    let ev := env (kv.2.drop 4)
    if ev ≠ [] then hSet h kv.1 ev else h
  else hSet h kv.1 kv.2

/-- Step 4 of `buildUpstreamHeaders`: `Add` every value of one auth
header. -/
def authAddStep (h : Header) (kv : Str × List Str) : Header :=
  kv.2.foldl (fun h v => hAdd h kv.1 v) h

/-- Headers after allow/set/remove, before auth. -/
def headersPreAuth (env : Str → Str) (policy : HeaderPolicy)
    (originalHeaders : Header) : Header :=
  policy.remove.foldl hDel
    (policy.set.foldl (setStep env)
      (policy.allow.foldl (allowStep originalHeaders) []))

/-- `buildUpstreamHeaders`: 1. copy `allow`ed client headers; 2. force
`set` entries (with `env:VAR` expansion, dropped when empty); 3. delete
`remove` entries; 4. `Add` all auth headers; 5. default `Content-Type`. -/
def contentTypeDefault (h4 : Header) : Header :=
  if hGet h4 "Content-Type".data = [] then
    hSet h4 "Content-Type".data "application/json".data
  else h4

def buildUpstreamHeaders (env : Str → Str) (policy : HeaderPolicy)
    (originalHeaders : Header) (authHeader : Header) : Header :=
  contentTypeDefault
    (authHeader.foldl authAddStep (headersPreAuth env policy originalHeaders))

/-! ## Transform pipeline (`UniversalProvider.applyRequestTransforms`) -/

/-- Replace the value of an existing object field (`ast.Node.Set` on a
present key). -/
def jsonSetField (j : Json) (key : Str) (v : Json) : Json :=
  match j with
  | .obj ms => .obj (setFirstField ms key (fun _ => v))
  | j => j

/-- Body of the `pii` messages loop for one element: mask a string
`content` field, writing back only if it changed. -/
def maskMessage (st : Vault × List Json) (elem : Json) : Vault × List Json :=
  match jsonGet elem "content".data with
  | some (.str content) =>
      let r := Mask st.1 content []
      if r.2 ≠ content then
        (r.1, st.2 ++ [jsonSetField elem "content".data (.str r.2)])
      else (r.1, st.2 ++ [elem])
  | _ => (st.1, st.2 ++ [elem])

/-- `applyPIITransform`: OpenAI-shaped masking; unparseable bodies and
bodies without a `messages` array pass through unchanged with no error. -/
def applyPIITransform (v : Vault) (body : Str) :
    Except Str (Vault × Str) :=
  match parseJson body with
  | none => .ok (v, body)
  | some root =>
      match jsonGet root "messages".data with
      | none => .ok (v, body)
      | some msgs =>
          match msgs with
          | .arr elems =>
              let r := elems.foldl maskMessage (v, [])
              .ok (r.1, render (jsonSetField root "messages".data (.arr r.2)))
          | _ => .ok (v, body)

/-- One Claude content block: mask `text` when `type == "text"`. -/
def maskBlock (st : Vault × List Json) (blk : Json) : Vault × List Json :=
  match jsonGet blk "type".data, jsonGet blk "text".data with
  | some (.str ty), some (.str tx) =>
      if ty = "text".data then
        let r := Mask st.1 tx []
        if r.2 ≠ tx then
          (r.1, st.2 ++ [jsonSetField blk "text".data (.str r.2)])
        else (r.1, st.2 ++ [blk])
      else (st.1, st.2 ++ [blk])
  | _, _ => (st.1, st.2 ++ [blk])

/-- One Claude message: string content masked directly, array content
masked block-wise. -/
def maskClaudeMessage (st : Vault × List Json) (elem : Json) :
    Vault × List Json :=
  match jsonGet elem "content".data with
  | some (.str content) =>
      let r := Mask st.1 content []
      if r.2 ≠ content then
        (r.1, st.2 ++ [jsonSetField elem "content".data (.str r.2)])
      else (r.1, st.2 ++ [elem])
  | some (.arr blocks) =>
      let r := blocks.foldl maskBlock (st.1, [])
      (r.1, st.2 ++ [jsonSetField elem "content".data (.arr r.2)])
  | _ => (st.1, st.2 ++ [elem])

/-- `applyClaudePIITransform`: top-level `system` string plus the
messages traversal; parse-success paths re-serialize the root. -/
def applyClaudePIITransform (v : Vault) (body : Str) :
    Except Str (Vault × Str) :=
  match parseJson body with
  | none => .ok (v, body)
  | some root =>
      let sysR :=
        match jsonGet root "system".data with
        | some (.str sys) =>
            let r := Mask v sys []
            if r.2 ≠ sys then
              (r.1, jsonSetField root "system".data (.str r.2))
            else (r.1, root)
        | _ => (v, root)
      let root1 := sysR.2
      match jsonGet root1 "messages".data with
      | some (.arr elems) =>
          let r := elems.foldl maskClaudeMessage (sysR.1, [])
          .ok (r.1, render (jsonSetField root1 "messages".data (.arr r.2)))
      | _ => .ok (sysR.1, render root1)

/-- gjson type dispatch in `applyFieldMapTransform`: strings, numbers and
booleans via typed setters, everything else as a raw fragment.  The
number branch goes through `gjson` `Float()` (an IEEE-754 float64) and
sjson's float64 encoding, abstracted as the decimal-literal conversion
`nc` (parse to float64, re-format); strings, booleans and raw
object/array copies are carried exactly. -/
def fieldMapValue (nc : Str → Str) : Json → Json
  | .str s => .str s
  | .num lit => .num (nc lit)
  | .bool b => .bool b
  | v => v

/-- One `field_map` entry of `applyFieldMapTransform`: read
`source_path` from the original step input `jb`, write into the running
buffer (`none` = body untouched so far, in which case sjson parses the
same bytes, i.e. `jb`).  Missing sources are skipped silently. -/
def fmStep (nc : Str → Str) (jb : Json) (acc : Option Json)
    (e : Str × Str) : Option Json :=
  match getPath jb (splitPath e.2) with
  | none => acc
  | some v => some (setPath (acc.getD jb) (splitPath e.1) (fieldMapValue nc v))

/-- `applyFieldMapTransform`: fold the config entries over the running
buffer, reading each source from the original step input. -/
def applyFieldMapTransform (nc : Str → Str) (body : Str)
    (config : List (Str × Str)) : Except Str Str :=
  match parseJson body with
  | none => .ok body
  | some jb =>
      match config.foldl (fmStep nc jb) none with
      | none => .ok body
      | some j => .ok (render j)

/-- `applyTemplateTransform`.  Go `text/template` parsing/execution is an
external library; it is abstracted as the function argument `texec`
(template source and parsed body map in, rendered bytes or error out).
The body must unmarshal into a `map[string]interface{}` (a JSON object)
and the output must be valid JSON. -/
def applyTemplateTransform (texec : Str → Json → Except Str Str)
    (body : Str) (config : List (Str × Str)) : Except Str Str :=
  let tmplStr := (assocGet config "template".data).getD []
  if tmplStr = [] then .ok body
  else
    match parseJson body with
    | none => .error "failed to parse body for template".data
    | some data =>
        match data with
        | .obj _ =>
            match texec tmplStr data with
            | .error e => .error e
            | .ok out =>
                if (parseJson out).isSome then .ok out
                else .error "template output is not valid JSON".data
        | _ => .error "failed to parse body for template".data

/-- One step of the request pipeline: dispatch on `step.Type`; unknown
types are skipped (`default: continue`). -/
def applyStep (texec : Str → Json → Except Str Str) (nc : Str → Str)
    (st : Vault × Str) (step : TransformStep) : Except Str (Vault × Str) :=
  let wrap : Except Str (Vault × Str) → Except Str (Vault × Str) := fun r =>
    match r with
    | .ok x => .ok x
    | .error e => .error ("transform failed: ".data ++ e)
  if step.type = "pii".data then wrap (applyPIITransform st.1 st.2)
  else if step.type = "pii_claude".data then
    wrap (applyClaudePIITransform st.1 st.2)
  else if step.type = "field_map".data then
    wrap ((applyFieldMapTransform nc st.2 step.config).map
      (fun b => (st.1, b)))
  else if step.type = "template".data then
    wrap ((applyTemplateTransform texec st.2 step.config).map
      (fun b => (st.1, b)))
  else .ok st

/-- `applyRequestTransforms`: fold the steps, short-circuiting on error. -/
def applyRequestTransforms (texec : Str → Json → Except Str Str)
    (nc : Str → Str) (v : Vault) (steps : List TransformStep) (body : Str) :
    Except Str (Vault × Str) :=
  steps.foldlM (applyStep texec nc) (v, body)

/-! ## Upstream response handling
(`sendToUpstream` tail and `handleHTTPError`) -/

def natDecGo : Nat → Nat → Str
  | 0, _ => []
  | fuel + 1, n =>
      if n < 10 then [Char.ofNat (48 + n)]
      else natDecGo fuel (n / 10) ++ [Char.ofNat (48 + n % 10)]

/-- Decimal rendering of a status code (`%d`). -/
def natDec (n : Nat) : Str := natDecGo (n + 1) n

/-- Message extraction in `handleHTTPError`: `Node.String()` of
`error.message` (OpenAI shape) when non-empty, else of top-level
`message`, else empty.  `String()` casts scalars (numbers and booleans
to their literals, null to the empty string) and errors on
objects/arrays and missing nodes; errors are discarded by `_`, leaving
the empty string. -/
def extractErrMsg (body : Str) : Str :=
  match parseJson body with
  | none => []
  | some root =>
      let m1 :=
        match (jsonGet root "error".data).bind
            (fun e => jsonGet e "message".data) with
        | some n => nodeString n
        | none => []
      if m1 = [] then
        match jsonGet root "message".data with
        | some n => nodeString n
        | none => []
      else m1

/-- `handleHTTPError`: extract `error.message`, then `message`; an empty
extraction yields the generic `HTTP %d: <raw body>` error; otherwise
classify 401/429/400, defaulting to `HTTP %d: <msg>`. -/
def handleHTTPError (statusCode : Nat) (body : Str) : Str :=
  let errMsg := extractErrMsg body
  if errMsg = [] then
    "HTTP ".data ++ natDec statusCode ++ ": ".data ++ body
  else if statusCode = 401 then "unauthorized: ".data ++ errMsg
  else if statusCode = 429 then "rate limit exceeded: ".data ++ errMsg
  else if statusCode = 400 then "bad request: ".data ++ errMsg
  else "HTTP ".data ++ natDec statusCode ++ ": ".data ++ errMsg

/-- The response-status dispatch at the end of `sendToUpstream`: a 200
returns the full body; anything else becomes `handleHTTPError`. -/
def dispatchResponse (statusCode : Nat) (respBody : Str) : Except Str Str :=
  if statusCode = 200 then .ok respBody
  else .error (handleHTTPError statusCode respBody)

/-! ## Specification-side definitions used by the theorems -/

def containsStrGo (sub : Str) : Str → Bool
  | [] => sub.isPrefixOf []
  | c :: xs => sub.isPrefixOf (c :: xs) || containsStrGo sub xs

/-- Substring test (`strings.Contains`). -/
def containsStr (s sub : Str) : Bool := containsStrGo sub s

/-- The per-element effect of the `pii` messages loop, with the masked
text expressed against an empty vault (the masked string does not depend
on the vault, which only records mappings). -/
def maskElemPure (elem : Json) : Json :=
  match jsonGet elem "content".data with
  | some (.str content) =>
      jsonSetField elem "content".data (.str (Mask [] content []).2)
  | _ => elem

/-- `Sanitize` truncated to the first `n` rules. -/
def sanitizeThrough (s : Str) (n : Nat) : Str :=
  (scannerRules.take n).foldl sanitizeRule s

/-- Constructor tag of a JSON value (its JSON type). -/
def jsonKind : Json → Nat
  | .null => 0
  | .bool _ => 1
  | .num _ => 2
  | .str _ => 3
  | .arr _ => 4
  | .obj _ => 5

/-- Two path segments address distinct children of the same container
whatever its kind: distinct as object keys, same numericness, and
distinct as array indices when numeric. -/
def segCompatB (a b : Str) : Bool :=
  decide (a ≠ b) &&
    match segIdx a, segIdx b with
    | some m, some n => decide (m ≠ n)
    | none, none => true
    | _, _ => false

/-- Paths that write/read disjoint locations: they diverge at some
segment with compatible, distinct segments. -/
def pathIndepB : List Str → List Str → Bool
  | a :: as, b :: bs => segCompatB a b || (decide (a = b) && pathIndepB as bs)
  | _, _ => false

/-! # Theorems -/

/-! ## Helper lemmas: SHA-256 output shape -/

theorem round256_length (st : List Nat) (kw : Nat × Nat) :
    (round256 st kw).length = st.length := by
  unfold round256
  split <;> simp_all

theorem foldl_round256_length (l : List (Nat × Nat)) (st : List Nat) :
    (l.foldl round256 st).length = st.length := by
  induction l generalizing st with
  | nil => rfl
  | cons x xs ih => simp [List.foldl_cons, ih, round256_length]

theorem compress_length (h : List Nat) (b : List Nat) :
    (compress h b).length = h.length := by
  unfold compress
  simp [List.length_zip, foldl_round256_length]

theorem foldl_compress_length (bs : List (List Nat)) (h : List Nat) :
    (bs.foldl compress h).length = h.length := by
  induction bs generalizing h with
  | nil => rfl
  | cons x xs ih => simp [List.foldl_cons, ih, compress_length]

theorem wordBytes_length (w : Nat) : (wordBytes w).length = 4 := rfl

theorem wordBytes_lt (w : Nat) : ∀ b ∈ wordBytes w, b < 256 := by
  simp only [wordBytes, List.mem_cons, List.not_mem_nil, or_false]
  rintro b (rfl | rfl | rfl | rfl) <;> omega

theorem sum_map_len_wordBytes (st : List Nat) :
    (st.map (List.length ∘ wordBytes)).sum = 4 * st.length := by
  induction st with
  | nil => rfl
  | cons x xs ih =>
      simp only [List.map_cons, List.sum_cons, Function.comp_apply,
        wordBytes_length, ih, List.length_cons]
      omega

theorem sha256_length (msg : List Nat) : (sha256 msg).length = 32 := by
  unfold sha256
  rw [List.length_flatten, List.map_map, sum_map_len_wordBytes,
    foldl_compress_length]
  rfl

theorem sha256_bytes_lt (msg : List Nat) : ∀ b ∈ sha256 msg, b < 256 := by
  unfold sha256
  intro b hb
  simp only [List.mem_flatten, List.mem_map] at hb
  obtain ⟨l, ⟨w, _, rfl⟩, hbl⟩ := hb
  exact wordBytes_lt w b hbl

theorem hexEncode_length (bs : List Nat) :
    (hexEncode bs).length = 2 * bs.length := by
  induction bs with
  | nil => rfl
  | cons b t ih => simp [hexEncode, List.foldr_cons] at ih ⊢; omega

theorem hexDigit_hexLower (n : Nat) (h : n < 16) :
    isHexLower (hexDigit n) = true := by
  interval_cases n <;> decide

theorem hexEncode_all_hex (bs : List Nat) (hlt : ∀ b ∈ bs, b < 256) :
    ∀ c ∈ hexEncode bs, isHexLower c = true := by
  induction bs with
  | nil => simp [hexEncode]
  | cons b t ih =>
      intro c hc
      simp only [hexEncode, List.foldr_cons, List.mem_cons] at hc
      have hb : b < 256 := hlt b (by simp)
      rcases hc with rfl | rfl | hc
      · exact hexDigit_hexLower _ (by omega)
      · exact hexDigit_hexLower _ (by omega)
      · exact ih (fun x hx => hlt x (by simp [hx])) c hc

/-! ## C2: placeholder syntax -/

set_option maxRecDepth 4000 in
/-- FIPS 180-4 test vectors for the `crypto/sha256` embedding: the empty
message, `"abc"`, and the 56-byte two-block vector (a length in the
56..63 mod 64 class, which exercises the padding boundary). -/
theorem sha256_vectors :
    hexEncode (sha256 (utf8 "".data)) =
      "e3b0c44298fc1c149afbf4c8996fb92427ae41e4649b934ca495991b7852b855".data
    ∧ hexEncode (sha256 (utf8 "abc".data)) =
      "ba7816bf8f01cfea414140de5dae2223b00361a396177a9cb410ff61f20015ad".data
    ∧ hexEncode (sha256 (utf8
        "abcdbcdecdefdefgefghfghighijhijkijkljklmklmnlmnomnopnopq".data)) =
      "248d6a61d20638b8e5c026930c3e6039a33ce45964ff2167f6ecedd419db06c1".data := by
  refine ⟨by decide, by decide, by decide⟩

/-- C2: for every string `m` that a scanner rule matches (as the matched
text of a match at any position: some preceding character and trailing
context), the placeholder substituted for `m` is `__AIGIS_SEC_` followed
by the first 12 lowercase-hex characters of SHA-256 of the UTF-8 bytes
of `m`, followed by `__`; the hex part has length exactly 12 and is
lowercase hex.  (Being a `def` of `m` alone, the placeholder is a pure
function of `m`.) -/
theorem C2_placeholder_syntax (m : Str)
    (hm : ∃ r ∈ scannerRules, ∃ prev rest,
      matchEnd r.pattern prev (m ++ rest) = some rest) :
    generatePlaceholder m =
      "__AIGIS_SEC_".data ++ (hexEncode (sha256 (utf8 m))).take 12 ++ "__".data
    ∧ ((hexEncode (sha256 (utf8 m))).take 12).length = 12
    ∧ ∀ c ∈ (hexEncode (sha256 (utf8 m))).take 12, isHexLower c = true := by
  refine ⟨rfl, ?_, ?_⟩
  · rw [List.length_take, hexEncode_length, sha256_length]
    omega
  · intro c hc
    exact hexEncode_all_hex _ (sha256_bytes_lt _) c (List.mem_of_mem_take hc)

/-- Witness for C2 at `m = "a@b.co"` (a full match of the Email rule). -/
theorem C2_placeholder_syntax_witness :
    generatePlaceholder "a@b.co".data =
      "__AIGIS_SEC_".data
        ++ (hexEncode (sha256 (utf8 "a@b.co".data))).take 12 ++ "__".data
    ∧ ((hexEncode (sha256 (utf8 "a@b.co".data))).take 12).length = 12
    ∧ ∀ c ∈ (hexEncode (sha256 (utf8 "a@b.co".data))).take 12,
        isHexLower c = true :=
  C2_placeholder_syntax "a@b.co".data
    ⟨⟨"Email".data, emailPat, "[EMAIL_REDACTED]".data⟩,
      by simp [scannerRules], none, [], by decide⟩

/-! ## C10: unknown transform types are skipped -/

theorem applyStep_unknown (texec : Str → Json → Except Str Str)
    (nc : Str → Str) (st : Vault × Str) (step : TransformStep)
    (h1 : step.type ≠ "pii".data) (h2 : step.type ≠ "pii_claude".data)
    (h3 : step.type ≠ "field_map".data) (h4 : step.type ≠ "template".data) :
    applyStep texec nc st step = .ok st := by
  simp [applyStep, h1, h2, h3, h4]

/-- C10: a transform step whose type is none of `pii`, `pii_claude`,
`field_map`, `template` is silently skipped: the pipeline's result (body
and error behavior alike) equals that of the pipeline with the step
removed. -/
theorem C10_unknown_step_skipped (texec : Str → Json → Except Str Str)
    (nc : Str → Str) (v : Vault) (body : Str)
    (steps1 steps2 : List TransformStep) (step : TransformStep)
    (h : step.type ∉
      ["pii".data, "pii_claude".data, "field_map".data, "template".data]) :
    applyRequestTransforms texec nc v (steps1 ++ step :: steps2) body =
      applyRequestTransforms texec nc v (steps1 ++ steps2) body := by
  simp only [List.mem_cons, List.not_mem_nil, or_false, not_or] at h
  obtain ⟨h1, h2, h3, h4⟩ := h
  unfold applyRequestTransforms
  rw [List.foldlM_append, List.foldlM_append]
  apply congrArg
  funext init
  show List.foldlM _ init (step :: steps2) = _
  rw [List.foldlM_cons, applyStep_unknown texec nc init step h1 h2 h3 h4]
  rfl

/-- Witness for C10: a misspelled step type `"pi"` in a one-step
pipeline is a no-op. -/
theorem C10_unknown_step_skipped_witness :
    applyRequestTransforms (fun _ _ => .ok []) (fun l => l) []
        ([] ++ ⟨"pi".data, []⟩ :: []) "\x7b\x7d".data =
      applyRequestTransforms (fun _ _ => .ok []) (fun l => l) []
        ([] ++ []) "\x7b\x7d".data :=
  C10_unknown_step_skipped (fun _ _ => .ok []) (fun l => l) []
    "\x7b\x7d".data [] [] ⟨"pi".data, []⟩ (by decide)

/-! ## C9: upstream response handling -/

/-- C9 counterexample: for a 401 whose body yields no extractable
message, the code produces the generic `HTTP 401: <raw body>` error —
not a 401-classified (`unauthorized`) error as the claim states. -/
theorem C9_counterexample :
    dispatchResponse 401 "oops".data = .error ("HTTP 401: oops".data)
    ∧ containsStr ("HTTP 401: oops".data) "unauthorized".data = false := by
  constructor
  · rfl
  · decide

/-- C9 (amended): a 200 returns the body exactly; any other status is an
error from `handleHTTPError`; classification by status (401/429/400,
generic otherwise) applies only when a non-empty message was extracted
from `error.message` or `message`; with no extracted message the error
is the generic `HTTP <status>: <raw body>`.  The numeric status appears
in the generic forms; the classified forms carry only label and
message. -/
theorem C9_response_handling (status : Nat) (body : Str) :
    (dispatchResponse status body = .ok body ↔ status = 200)
    ∧ (status ≠ 200 →
        dispatchResponse status body = .error (handleHTTPError status body))
    ∧ (extractErrMsg body = [] →
        handleHTTPError status body =
          "HTTP ".data ++ natDec status ++ ": ".data ++ body)
    ∧ (extractErrMsg body ≠ [] →
        handleHTTPError status body =
          if status = 401 then "unauthorized: ".data ++ extractErrMsg body
          else if status = 429 then
            "rate limit exceeded: ".data ++ extractErrMsg body
          else if status = 400 then
            "bad request: ".data ++ extractErrMsg body
          else "HTTP ".data ++ natDec status ++ ": ".data ++ extractErrMsg body)
    := by
  refine ⟨⟨fun h => ?_, fun h => ?_⟩, fun h => ?_, fun h => ?_, fun h => ?_⟩
  · by_contra hne
    rw [dispatchResponse, if_neg hne] at h
    exact Except.noConfusion h
  · rw [dispatchResponse, if_pos h]
  · rw [dispatchResponse, if_neg h]
  · rw [handleHTTPError, h]
    rfl
  · rw [handleHTTPError]
    simp only [if_neg h]

/-- Witness for C9 at status 401 with an OpenAI-shaped error body. -/
theorem C9_response_handling_witness :
    handleHTTPError 401 "\x7b\"error\":\x7b\"message\":\"bad key\"\x7d\x7d".data =
      "unauthorized: bad key".data := by
  have h := (C9_response_handling 401
    "\x7b\"error\":\x7b\"message\":\"bad key\"\x7d\x7d".data).2.2.2 (by decide)
  rw [h]
  rfl

/-! ## C4: route selection -/

theorem find?_key_map_set (m : List (Str × α)) (k k2 : Str) (v : α) :
    List.find? (fun p => p.1 = k2)
        (m.map (fun p => if p.1 = k then (p.1, v) else p)) =
      (List.find? (fun p => p.1 = k2) m).map
        (fun p => if p.1 = k then (p.1, v) else p) := by
  rw [List.find?_map]
  apply congrArg
  apply congrFun
  apply congrArg
  funext p
  by_cases hp : p.1 = k <;> simp [hp]

theorem assocGet_assocSet_self (m : List (Str × α)) (k : Str) (v : α) :
    assocGet (assocSet m k v) k = some v := by
  unfold assocSet
  split
  · next hany =>
      unfold assocGet
      rw [find?_key_map_set]
      obtain ⟨p, hp, hpk⟩ := List.any_eq_true.mp hany
      cases hf : List.find? (fun p => p.1 = k) m with
      | none =>
          rw [List.find?_eq_none] at hf
          exact absurd hpk (by simpa using hf p hp)
      | some q =>
          have hq : q.1 = k := by simpa using List.find?_some hf
          simp [hq]
  · unfold assocGet
    rw [List.find?_append]
    cases hf : List.find? (fun p => p.1 = k) m with
    | none => simp
    | some q =>
        next hany =>
          exact absurd (List.any_eq_true.mpr
            ⟨q, List.mem_of_find?_eq_some hf, List.find?_some hf⟩) hany

theorem assocGet_assocSet_ne (m : List (Str × α)) (k k2 : Str) (v : α)
    (h : k2 ≠ k) : assocGet (assocSet m k v) k2 = assocGet m k2 := by
  unfold assocSet
  split
  · unfold assocGet
    rw [find?_key_map_set]
    cases hf : List.find? (fun p => p.1 = k2) m with
    | none => simp
    | some q =>
        have hq : q.1 = k2 := by simpa using List.find?_some hf
        have : ¬ q.1 = k := by rw [hq]; exact h
        simp [this]
  · unfold assocGet
    rw [List.find?_append]
    cases hf : List.find? (fun p => p.1 = k2) m with
    | none => simp [List.find?_cons, Ne.symm h]
    | some q => simp

theorem find?_congr_mem (l : List α) (p q : α → Bool)
    (h : ∀ x ∈ l, p x = q x) : l.find? p = l.find? q := by
  induction l with
  | nil => rfl
  | cons x t ih =>
      rw [List.find?_cons, List.find?_cons, h x (by simp)]
      cases q x with
      | true => rfl
      | false => exact ih (fun y hy => h y (by simp [hy]))

theorem assocGet_fold_routes_ne (routes : List RouteM)
    (m : List (Str × List (Str × (Str → Bool)))) (k : Str)
    (h : ∀ r ∈ routes, r.id ≠ k) :
    assocGet (routes.foldl (fun m r => assocSet m r.id r.matcher) m) k =
      assocGet m k := by
  induction routes generalizing m with
  | nil => rfl
  | cons x t ih =>
      rw [List.foldl_cons, ih _ (fun r hr => h r (by simp [hr])),
        assocGet_assocSet_ne _ _ _ _ (fun hk => h x (by simp) hk.symm)]

theorem assocGet_buildMatchers_fold (routes : List RouteM)
    (m : List (Str × List (Str × (Str → Bool)))) (r : RouteM)
    (hr : r ∈ routes) (hnd : (routes.map RouteM.id).Nodup) :
    assocGet (routes.foldl (fun m r => assocSet m r.id r.matcher) m) r.id =
      some r.matcher := by
  induction routes generalizing m with
  | nil => cases hr
  | cons x t ih =>
      rw [List.map_cons, List.nodup_cons] at hnd
      rcases List.mem_cons.mp hr with rfl | hrt
      · rw [List.foldl_cons,
          assocGet_fold_routes_ne t _ r.id
            (fun q hq hqk => hnd.1 (hqk ▸ List.mem_map_of_mem RouteM.id hq)),
          assocGet_assocSet_self]
      · exact ih _ hrt hnd.2

theorem assocGet_buildMatchers (routes : List RouteM) (r : RouteM)
    (hr : r ∈ routes) (hnd : (routes.map RouteM.id).Nodup) :
    assocGet (buildMatchers routes) r.id = some r.matcher :=
  assocGet_buildMatchers_fold routes [] r hr hnd

/-- Witness fixtures for the route-selection claim: a `gpt-` matcher
route and a catch-all. -/
def c4routeA : RouteM :=
  ⟨"a".data, [("model".data, fun v => v.take 4 = "gpt-".data)],
    ⟨[], [], [], [], []⟩, [], ⟨[], [], []⟩⟩

def c4routeB : RouteM :=
  ⟨"b".data, [], ⟨[], [], [], [], []⟩, [], ⟨[], [], []⟩⟩

def c4root : Json := .obj [("model".data, .str "gpt-4o".data)]

/-- C4: for a JSON-parseable body and routes with (per the data model)
unique IDs, `FindRoute` returns the first route in declared order whose
every matcher entry matches, each matcher reading `root.Get(jsonPath)`
and applying the regex to `Node.String()` of the node (scalars cast,
with the raw source bytes as the fallback for objects/arrays); a route
with an empty matcher map matches any well-formed body; when no route
matches it returns `none` without an error. -/
theorem C4_findRoute_first_match (routes : List RouteM) (body : Str)
    (root : Json) (hnd : (routes.map RouteM.id).Nodup)
    (hp : parseJson body = some root) :
    findRoute routes body =
      .ok (routes.find? (fun r => routeMatches body r.matcher))
    ∧ (∀ r ∈ routes, r.matcher = [] → routeMatches body r.matcher = true)
    ∧ ((∀ r ∈ routes, routeMatches body r.matcher = false) →
        findRoute routes body = .ok none) := by
  have hstep : findRoute routes body =
      .ok (routes.find? (fun r =>
        routeMatches body ((assocGet (buildMatchers routes) r.id).getD []))) := by
    unfold findRoute
    rw [hp]
  have hmain : findRoute routes body =
      .ok (routes.find? (fun r => routeMatches body r.matcher)) := by
    rw [hstep]
    apply congrArg
    apply find?_congr_mem
    intro r hr
    rw [assocGet_buildMatchers routes r hr hnd]
    rfl
  refine ⟨hmain, ?_, ?_⟩
  · intro r _ hm
    rw [hm]
    rfl
  · intro hall
    rw [hmain, List.find?_eq_none.mpr (fun r hr => by simp [hall r hr])]

/-- Witness for C4: a `gpt-` matcher route followed by a catch-all;
a `gpt-4o` body selects the first. -/
theorem C4_findRoute_first_match_witness :
    findRoute [c4routeA, c4routeB] "\x7b\"model\":\"gpt-4o\"\x7d".data =
      .ok (List.find? (fun r =>
          routeMatches "\x7b\"model\":\"gpt-4o\"\x7d".data r.matcher)
        [c4routeA, c4routeB])
    ∧ (∀ r ∈ [c4routeA, c4routeB], r.matcher = [] →
        routeMatches "\x7b\"model\":\"gpt-4o\"\x7d".data r.matcher = true)
    ∧ ((∀ r ∈ [c4routeA, c4routeB],
          routeMatches "\x7b\"model\":\"gpt-4o\"\x7d".data r.matcher = false) →
        findRoute [c4routeA, c4routeB] "\x7b\"model\":\"gpt-4o\"\x7d".data
          = .ok none) :=
  C4_findRoute_first_match [c4routeA, c4routeB] _ c4root
    (by simp [c4routeA, c4routeB]) rfl

/-! ## C3: header policy precedence -/

/-- C3 counterexample: `X-B` appears in both `set` and `remove`; the
claim says it survives with the `set` value, but the code runs `Remove`
after `Set`, so it is absent (only the `Content-Type` default remains). -/
theorem C3_counterexample :
    buildUpstreamHeaders (fun _ => [])
        ⟨["X-A".data], [("X-B".data, "v".data)],
          ["X-A".data, "X-B".data]⟩
        [("X-A".data, ["1".data])] [] =
      [("Content-Type".data, ["application/json".data])]
    ∧ assocGet
        (buildUpstreamHeaders (fun _ => [])
          ⟨["X-A".data], [("X-B".data, "v".data)],
            ["X-A".data, "X-B".data]⟩
          [("X-A".data, ["1".data])] [])
        "X-B".data = none :=
  ⟨rfl, rfl⟩

theorem assocGet_hDel_self (h : Header) (k : Str) :
    assocGet (hDel h k) (canonicalKey k) = none := by
  unfold hDel assocGet
  rw [List.find?_eq_none.mpr]
  · rfl
  · intro p hp
    have := (List.mem_filter.mp hp).2
    simpa using this

theorem assocGet_none_hDel (h : Header) (k : Str) (ck : Str)
    (hn : assocGet h ck = none) : assocGet (hDel h k) ck = none := by
  unfold assocGet at hn
  unfold hDel assocGet
  cases hf : List.find? (fun p => p.1 = ck) h with
  | some q => rw [hf] at hn; exact Option.noConfusion hn
  | none =>
      rw [List.find?_eq_none] at hf
      rw [List.find?_eq_none.mpr]
      · rfl
      · intro p hp
        exact hf p (List.mem_filter.mp hp).1

theorem assocGet_none_fold_hDel (l : List Str) (h : Header) (ck : Str)
    (hn : assocGet h ck = none) :
    assocGet (l.foldl hDel h) ck = none := by
  induction l generalizing h with
  | nil => exact hn
  | cons x t ih => exact ih _ (assocGet_none_hDel h x ck hn)

theorem assocGet_fold_hDel_mem (removes : List Str) (h : Header) (k : Str)
    (hk : k ∈ removes) :
    assocGet (removes.foldl hDel h) (canonicalKey k) = none := by
  induction removes generalizing h with
  | nil => cases hk
  | cons x t ih =>
      by_cases hkt : k ∈ t
      · exact ih _ hkt
      · have hx : k = x := by
          rcases List.mem_cons.mp hk with rfl | h2
          · rfl
          · exact absurd h2 hkt
        subst hx
        rw [List.foldl_cons]
        exact assocGet_none_fold_hDel t _ _ (assocGet_hDel_self h k)

theorem assocGet_hAdd_ne (h : Header) (k2 v : Str) (ck : Str)
    (hne : canonicalKey k2 ≠ ck) :
    assocGet (hAdd h k2 v) ck = assocGet h ck := by
  simp only [hAdd]
  split
  · unfold assocGet
    rw [List.find?_map]
    have : ((fun p : Str × List Str => decide (p.1 = ck)) ∘
        (fun p => if p.1 = canonicalKey k2 then (p.1, p.2 ++ [v]) else p)) =
        fun p : Str × List Str => decide (p.1 = ck) := by
      funext p
      by_cases hp : p.1 = canonicalKey k2 <;> simp [hp]
    rw [this]
    cases hf : List.find? (fun p => p.1 = ck) h with
    | none => simp
    | some q =>
        have hq : q.1 = ck := by simpa using List.find?_some hf
        have : ¬ q.1 = canonicalKey k2 := fun hh => hne (by rw [← hh, hq])
        simp [this]
  · unfold assocGet
    rw [List.find?_append]
    cases hf : List.find? (fun p => p.1 = ck) h with
    | none => simp [List.find?_cons, fun hh => hne hh]
    | some q => simp

theorem assocGet_hSet_ne (h : Header) (k2 v : Str) (ck : Str)
    (hne : canonicalKey k2 ≠ ck) :
    assocGet (hSet h k2 v) ck = assocGet h ck := by
  simp only [hSet]
  split
  · unfold assocGet
    rw [List.find?_map]
    have : ((fun p : Str × List Str => decide (p.1 = ck)) ∘
        (fun p => if p.1 = canonicalKey k2 then (p.1, [v]) else p)) =
        fun p : Str × List Str => decide (p.1 = ck) := by
      funext p
      by_cases hp : p.1 = canonicalKey k2 <;> simp [hp]
    rw [this]
    cases hf : List.find? (fun p => p.1 = ck) h with
    | none => simp
    | some q =>
        have hq : q.1 = ck := by simpa using List.find?_some hf
        have : ¬ q.1 = canonicalKey k2 := fun hh => by
          exact hne (by rw [← hh, hq])
        simp [this]
  · unfold assocGet
    rw [List.find?_append]
    cases hf : List.find? (fun p => p.1 = ck) h with
    | none => simp [List.find?_cons, fun hh => hne hh]
    | some q => simp

theorem hVals_eq_assocGet (h : Header) (k : Str) :
    hVals h k = ((assocGet h (canonicalKey k)).getD []) := by
  unfold hVals assocGet
  cases List.find? (fun p => p.1 = canonicalKey k) h <;> rfl

theorem hVals_hAdd_self (h : Header) (k2 v : Str) (k : Str)
    (h2 : canonicalKey k2 = k) (hck : canonicalKey k = k) :
    hVals (hAdd h k2 v) k = hVals h k ++ [v] := by
  simp only [hAdd, hVals, h2, hck, assocGet]
  split
  · next hany =>
      rw [List.find?_map]
      have : ((fun p : Str × List Str => decide (p.1 = k)) ∘
          (fun p => if p.1 = k then (p.1, p.2 ++ [v]) else p)) =
          fun p : Str × List Str => decide (p.1 = k) := by
        funext p
        by_cases hp : p.1 = k <;> simp [hp]
      rw [this]
      cases hf : List.find? (fun p => p.1 = k) h with
      | none =>
          obtain ⟨p, hp, hpk⟩ := List.any_eq_true.mp hany
          rw [List.find?_eq_none] at hf
          exact absurd hpk (by simpa using hf p hp)
      | some q =>
          have hq : q.1 = k := by simpa using List.find?_some hf
          simp [hq]
  · rw [List.find?_append]
    cases hf : List.find? (fun p => p.1 = k) h with
    | none => simp [List.find?_cons]
    | some q =>
        next hany =>
          exact absurd (List.any_eq_true.mpr
            ⟨q, List.mem_of_find?_eq_some hf, List.find?_some hf⟩) hany

theorem hVals_hAdd_ext (h : Header) (k2 v : Str) (k : Str)
    (hck : canonicalKey k = k) :
    ∃ suf, hVals (hAdd h k2 v) k = hVals h k ++ suf := by
  by_cases he : canonicalKey k2 = canonicalKey k
  · rw [hck] at he
    exact ⟨[v], hVals_hAdd_self h k2 v k he hck⟩
  · refine ⟨[], ?_⟩
    rw [List.append_nil, hVals_eq_assocGet, hVals_eq_assocGet,
      assocGet_hAdd_ne]
    rw [hck]
    rw [hck] at he
    exact he

theorem assocGet_fold_vs_hAdd_ne (vs : List Str) (h : Header) (k2 : Str)
    (ck : Str) (hne : canonicalKey k2 ≠ ck) :
    assocGet (vs.foldl (fun h v => hAdd h k2 v) h) ck = assocGet h ck := by
  induction vs generalizing h with
  | nil => rfl
  | cons v t ih => rw [List.foldl_cons, ih, assocGet_hAdd_ne _ _ _ _ hne]

theorem assocGet_fold_auth_ne (auth : Header) (h : Header) (ck : Str)
    (hne : ∀ kv ∈ auth, canonicalKey kv.1 ≠ ck) :
    assocGet (auth.foldl authAddStep h) ck = assocGet h ck := by
  induction auth generalizing h with
  | nil => rfl
  | cons kv t ih =>
      rw [List.foldl_cons, ih _ (fun q hq => hne q (by simp [hq]))]
      exact assocGet_fold_vs_hAdd_ne _ _ _ _ (hne kv (by simp))

theorem hVals_fold_vs_hAdd_self (vs : List Str) (h : Header) (k : Str)
    (hck : canonicalKey k = k) :
    hVals (vs.foldl (fun h v => hAdd h k v) h) k = hVals h k ++ vs := by
  induction vs generalizing h with
  | nil => simp
  | cons v t ih =>
      rw [List.foldl_cons, ih, hVals_hAdd_self h k v k hck hck]
      simp

theorem hVals_fold_vs_hAdd_ext (vs : List Str) (h : Header) (k2 : Str)
    (k : Str) (hck : canonicalKey k = k) :
    ∃ suf, hVals (vs.foldl (fun h v => hAdd h k2 v) h) k = hVals h k ++ suf := by
  induction vs generalizing h with
  | nil => exact ⟨[], by simp⟩
  | cons v t ih =>
      obtain ⟨s1, hs1⟩ := hVals_hAdd_ext h k2 v k hck
      obtain ⟨s2, hs2⟩ := ih (hAdd h k2 v)
      exact ⟨s1 ++ s2, by rw [List.foldl_cons, hs2, hs1, List.append_assoc]⟩

theorem hVals_fold_auth_ext (auth : Header) (h : Header) (k : Str)
    (hck : canonicalKey k = k) :
    ∃ suf, hVals (auth.foldl authAddStep h) k = hVals h k ++ suf := by
  induction auth generalizing h with
  | nil => exact ⟨[], by simp⟩
  | cons kv t ih =>
      obtain ⟨s1, hs1⟩ := hVals_fold_vs_hAdd_ext kv.2 h kv.1 k hck
      obtain ⟨s2, hs2⟩ := ih (authAddStep h kv)
      refine ⟨s1 ++ s2, ?_⟩
      rw [List.foldl_cons, hs2]
      show hVals (authAddStep h kv) k ++ s2 = _
      unfold authAddStep
      rw [hs1, List.append_assoc]

/-- C3 (amended): under the real precedence — allow, then set, then
remove, then auth `Add`s, then the `Content-Type` default — (a) a header
named in `remove` is absent from the upstream headers whether it came
from `allow` or `set`, unless an auth header re-adds its name or it is
`Content-Type` (defaulted when absent); (b) the auth header
(`buildAuthHeaders` emits at most one) appears with its values appended
exactly after the values that survived the allow/set/remove stages for
that name — the surviving values are retained, not overridden. -/
theorem C3_header_policy (env : Str → Str) (policy : HeaderPolicy)
    (orig auth : Header) :
    (∀ name ∈ policy.remove,
      (∀ kv ∈ auth, canonicalKey kv.1 ≠ canonicalKey name) →
      canonicalKey name ≠ "Content-Type".data →
      assocGet (buildUpstreamHeaders env policy orig auth)
        (canonicalKey name) = none)
    ∧ (∀ kv, auth = [kv] →
        canonicalKey kv.1 = kv.1 → kv.1 ≠ "Content-Type".data →
        hVals (buildUpstreamHeaders env policy orig auth) kv.1 =
          hVals (headersPreAuth env policy orig) kv.1 ++ kv.2) := by
  unfold buildUpstreamHeaders
  constructor
  · intro name hname hauth hct
    have h3 : assocGet (headersPreAuth env policy orig) (canonicalKey name)
        = none := assocGet_fold_hDel_mem _ _ _ hname
    have h4 := assocGet_fold_auth_ne auth (headersPreAuth env policy orig)
      (canonicalKey name) hauth
    rw [h3] at h4
    unfold contentTypeDefault
    split
    · rw [assocGet_hSet_ne]
      · exact h4
      · show canonicalKey "Content-Type".data ≠ canonicalKey name
        exact fun hh => hct (by rw [← hh]; rfl)
    · exact h4
  · intro kv hsplit hck hct
    subst hsplit
    rw [List.foldl_cons, List.foldl_nil]
    have hkey : hVals (authAddStep (headersPreAuth env policy orig) kv) kv.1 =
        hVals (headersPreAuth env policy orig) kv.1 ++ kv.2 := by
      unfold authAddStep
      rw [hVals_fold_vs_hAdd_self kv.2 _ kv.1 hck]
    unfold contentTypeDefault
    split
    · rw [hVals_eq_assocGet, assocGet_hSet_ne, ← hVals_eq_assocGet, hkey]
      rw [hck]
      show canonicalKey "Content-Type".data ≠ kv.1
      exact fun hh => hct (by rw [← hh]; rfl)
    · exact hkey

/-- Witness for C3: remove kills `X-Request-Id` and `Cookie`; the bearer
auth value is appended after the (empty) surviving `Authorization`
values. -/
theorem C3_header_policy_witness :
    assocGet
        (buildUpstreamHeaders (fun _ => "tok".data)
          ⟨["X-Request-Id".data], [("X-Tenant".data, "acme".data)],
            ["X-Request-Id".data, "Cookie".data]⟩
          [("X-Request-Id".data, ["r1".data]),
           ("Cookie".data, ["c".data])]
          [("Authorization".data, ["Bearer tok".data])])
        (canonicalKey "X-Request-Id".data) = none
    ∧ hVals
        (buildUpstreamHeaders (fun _ => "tok".data)
          ⟨["X-Request-Id".data], [("X-Tenant".data, "acme".data)],
            ["X-Request-Id".data, "Cookie".data]⟩
          [("X-Request-Id".data, ["r1".data]),
           ("Cookie".data, ["c".data])]
          [("Authorization".data, ["Bearer tok".data])])
        "Authorization".data =
      hVals
        (headersPreAuth (fun _ => "tok".data)
          ⟨["X-Request-Id".data], [("X-Tenant".data, "acme".data)],
            ["X-Request-Id".data, "Cookie".data]⟩
          [("X-Request-Id".data, ["r1".data]),
           ("Cookie".data, ["c".data])])
        "Authorization".data ++ ["Bearer tok".data] := by
  have h := C3_header_policy (fun _ => "tok".data)
    ⟨["X-Request-Id".data], [("X-Tenant".data, "acme".data)],
      ["X-Request-Id".data, "Cookie".data]⟩
    [("X-Request-Id".data, ["r1".data]), ("Cookie".data, ["c".data])]
    [("Authorization".data, ["Bearer tok".data])]
  exact ⟨h.1 "X-Request-Id".data (by decide) (by decide) (by decide),
    h.2 ("Authorization".data, ["Bearer tok".data]) rfl
      (by decide) (by decide)⟩

/-! ## Mask determinism (helper for C6 and C7) -/

theorem maskRuleStep_go_str (r : Rule) (fuel : Nat) :
    ∀ (v v' : Vault) (prev : Option Char) (s : Str),
      (maskRuleStep.go r fuel v prev s).2 = (maskRuleStep.go r fuel v' prev s).2 := by
  induction fuel with
  | zero => intro v v' prev s; rfl
  | succ n ih =>
      intro v v' prev s
      simp only [maskRuleStep.go]
      cases hf : findFrom r.pattern prev s with
      | none => rfl
      | some pmr =>
          obtain ⟨pre, m, rest⟩ := pmr
          cases hl : m.getLast? with
          | some lastc =>
              simp only [hl]
              exact congrArg (fun t => pre ++ generatePlaceholder m ++ t)
                (ih _ _ _ _)
          | none =>
              cases rest with
              | nil => simp only [hl]
              | cons x xs =>
                  simp only [hl]
                  exact congrArg
                    (fun t => pre ++ generatePlaceholder m ++ [x] ++ t)
                    (ih _ _ _ _)

theorem maskRuleStep_str (st st' : Vault × Str) (r : Rule)
    (h : st.2 = st'.2) : (maskRuleStep st r).2 = (maskRuleStep st' r).2 := by
  unfold maskRuleStep
  rw [h]
  exact maskRuleStep_go_str r _ st.1 st'.1 none st'.2

/-- The masked string is independent of the vault passed in: `Mask` only
writes to the vault, and placeholders are generated from the match
alone. -/
theorem mask_str_vault_indep (v v' : Vault) (s : Str) (tags : List Str) :
    (Mask v s tags).2 = (Mask v' s tags).2 := by
  unfold Mask
  generalize scannerRules = rules
  have main : ∀ (rules : List Rule) (st st' : Vault × Str), st.2 = st'.2 →
      (rules.foldl
        (fun st r => if ruleApplies tags r then maskRuleStep st r else st)
        st).2 =
      (rules.foldl
        (fun st r => if ruleApplies tags r then maskRuleStep st r else st)
        st').2 := by
    intro rules
    induction rules with
    | nil => intro st st' h; exact h
    | cons r t ih =>
        intro st st' h
        rw [List.foldl_cons, List.foldl_cons]
        by_cases ha : ruleApplies tags r
        · simp only [ha, if_true]
          exact ih _ _ (maskRuleStep_str st st' r h)
        · simp only [ha, if_false]
          exact ih _ _ h
  exact main rules (v, s) (v', s) rfl

/-! ## C7: the `pii` transform -/

theorem setFirstField_same (key : Str) (v : Json) :
    ∀ ms : List (Str × Json),
      (ms.find? (fun p => p.1 = key)).map (·.2) = some v →
      setFirstField ms key (fun _ => v) = ms
  | [], h => Option.noConfusion h
  | (k, pv) :: t, h => by
      by_cases hp : k = key
      · have hfind : ((k, pv) :: t).find? (fun p => p.1 = key) = some (k, pv) :=
          List.find?_cons_of_pos _ (by simpa using hp)
        rw [hfind] at h
        have hv : pv = v := Option.some.inj h
        show (if k = key then (k, v) :: t else _) = _
        rw [if_pos hp, ← hv]
      · have hfind : ((k, pv) :: t).find? (fun p => p.1 = key) =
            t.find? (fun p => p.1 = key) :=
          List.find?_cons_of_neg _ (by simpa using hp)
        rw [hfind] at h
        show (if k = key then _
            else (k, pv) :: setFirstField t key fun _ => v) = _
        rw [if_neg hp, setFirstField_same key v t h]

theorem jsonSetField_same (elem : Json) (key : Str) (v : Json)
    (h : jsonGet elem key = some v) : jsonSetField elem key v = elem := by
  cases elem with
  | obj ms =>
      have h2 : (ms.find? (fun p => p.1 = key)).map (·.2) = some v := h
      show Json.obj (setFirstField ms key (fun _ => v)) = Json.obj ms
      rw [setFirstField_same key v ms h2]
  | null => rfl
  | bool b => rfl
  | num l => rfl
  | str s => rfl
  | arr es => rfl

theorem maskMessage_char (st : Vault × List Json) (elem : Json) :
    maskMessage st elem =
      ((maskMessage st elem).1, st.2 ++ [maskElemPure elem]) := by
  cases hg : jsonGet elem "content".data with
  | none => simp only [maskMessage, maskElemPure, hg]
  | some cv =>
      cases cv with
      | str content =>
          simp only [maskMessage, maskElemPure, hg]
          have hdet : (Mask st.1 content []).2 = (Mask [] content []).2 :=
            mask_str_vault_indep st.1 [] content []
          rw [hdet]
          by_cases hch : (Mask [] content []).2 ≠ content
          · rw [if_pos hch]
          · rw [if_neg hch]
            push_neg at hch
            rw [hch, jsonSetField_same elem _ _ hg]
      | null => simp only [maskMessage, maskElemPure, hg]
      | bool b => simp only [maskMessage, maskElemPure, hg]
      | num l => simp only [maskMessage, maskElemPure, hg]
      | arr es => simp only [maskMessage, maskElemPure, hg]
      | obj ms => simp only [maskMessage, maskElemPure, hg]

theorem foldl_maskMessage (elems : List Json) :
    ∀ (v : Vault) (acc : List Json),
      ∃ v2, elems.foldl maskMessage (v, acc) =
        (v2, acc ++ elems.map maskElemPure) := by
  induction elems with
  | nil => intro v acc; exact ⟨v, by simp⟩
  | cons e t ih =>
      intro v acc
      rw [List.foldl_cons, maskMessage_char (v, acc) e]
      obtain ⟨v2, h2⟩ := ih (maskMessage (v, acc) e).1 (acc ++ [maskElemPure e])
      exact ⟨v2, by rw [h2]; simp⟩

/-- C7: the `pii` step returns a non-JSON input unchanged with no error;
on a parsed body whose `messages` is an array, every element with a
string `content` has it replaced by its `Mask`ed value (the masked text
being vault-independent), and every element whose `content` is missing
or not a string is left unchanged; a missing or non-array `messages`
also passes the body through unchanged. -/
theorem C7_pii_transform (v : Vault) (body : Str) :
    (parseJson body = none → applyPIITransform v body = .ok (v, body))
    ∧ (∀ root, parseJson body = some root →
        (jsonGet root "messages".data = none →
          applyPIITransform v body = .ok (v, body))
        ∧ (∀ mv, jsonGet root "messages".data = some mv →
            (∀ es, mv ≠ .arr es) → applyPIITransform v body = .ok (v, body))
        ∧ (∀ elems, jsonGet root "messages".data = some (.arr elems) →
            ∃ v2, applyPIITransform v body =
              .ok (v2, render (jsonSetField root "messages".data
                (.arr (elems.map maskElemPure))))))
    ∧ (∀ elem,
        (∀ content, jsonGet elem "content".data ≠ some (.str content)) →
        maskElemPure elem = elem) := by
  refine ⟨?_, ?_, ?_⟩
  · intro h
    simp only [applyPIITransform, h]
  · intro root hp
    refine ⟨?_, ?_, ?_⟩
    · intro h
      simp only [applyPIITransform, hp, h]
    · intro mv hmv hne
      cases mv with
      | arr es => exact absurd rfl (hne es)
      | null => simp only [applyPIITransform, hp, hmv]
      | bool b => simp only [applyPIITransform, hp, hmv]
      | num l => simp only [applyPIITransform, hp, hmv]
      | str s => simp only [applyPIITransform, hp, hmv]
      | obj ms => simp only [applyPIITransform, hp, hmv]
    · intro elems hmv
      simp only [applyPIITransform, hp, hmv]
      obtain ⟨v2, h2⟩ := foldl_maskMessage elems v []
      rw [h2]
      exact ⟨v2, rfl⟩
  · intro elem hne
    unfold maskElemPure
    cases hg : jsonGet elem "content".data with
    | none => rfl
    | some cv =>
        cases cv with
        | str content => exact absurd hg (hne content)
        | null => rfl
        | bool b => rfl
        | num l => rfl
        | arr es => rfl
        | obj ms => rfl

/-- Witness for C7: a body with one maskable string content and one
numeric content; and the unparseable-body case via the same theorem. -/
theorem C7_pii_transform_witness :
    applyPIITransform [] "not json".data = .ok ([], "not json".data)
    ∧ ∃ v2, applyPIITransform []
        "\x7b\"messages\":[\x7b\"content\":\"a@b.co\"\x7d,\x7b\"content\":5\x7d]\x7d".data =
      .ok (v2, render (jsonSetField
        (.obj [("messages".data,
          .arr [.obj [("content".data, .str "a@b.co".data)],
                .obj [("content".data, .num ['5'])]])])
        "messages".data
        (.arr ([.obj [("content".data, .str "a@b.co".data)],
                .obj [("content".data, .num ['5'])]].map maskElemPure)))) :=
  ⟨(C7_pii_transform [] "not json".data).1 rfl,
    ((C7_pii_transform []
        "\x7b\"messages\":[\x7b\"content\":\"a@b.co\"\x7d,\x7b\"content\":5\x7d]\x7d".data).2.1
      (.obj [("messages".data,
        .arr [.obj [("content".data, .str "a@b.co".data)],
              .obj [("content".data, .num ['5'])]])]) rfl).2.2
      [.obj [("content".data, .str "a@b.co".data)],
       .obj [("content".data, .num ['5'])]] rfl⟩

/-! ## C5: rule ordering and `Sanitize` -/

/-- C5 counterexample: an input holding a valid OpenAI-style key *and*
a phone number; the output contains `[PHONE_REDACTED]`, refuting the
claim's "never contains". -/
theorem C5_counterexample :
    (findFrom openaiKeyPat none
      "key sk-proj-abcdef0123456789012345 call 13800138000".data).isSome
      = true
    ∧ containsStr
        (Sanitize "key sk-proj-abcdef0123456789012345 call 13800138000".data)
        "[PHONE_REDACTED]".data = true := by
  constructor
  · decide
  · decide

theorem containsStrGo_of_isPrefixOf (sub t : Str)
    (h : sub.isPrefixOf t = true) : containsStrGo sub t = true := by
  cases t with
  | nil => exact h
  | cons c xs =>
      unfold containsStrGo
      rw [h]
      rfl

theorem containsStrGo_cons (sub : Str) (c : Char) (xs : Str)
    (h : containsStrGo sub xs = true) : containsStrGo sub (c :: xs) = true := by
  unfold containsStrGo
  rw [h]
  simp

theorem containsStr_append_left (pre t sub : Str)
    (h : containsStr t sub = true) : containsStr (pre ++ t) sub = true := by
  induction pre with
  | nil => exact h
  | cons c xs ih => exact containsStrGo_cons sub c _ ih

theorem containsStr_of_append (pre lbl suf : Str) :
    containsStr (pre ++ lbl ++ suf) lbl = true := by
  rw [List.append_assoc]
  exact containsStr_append_left pre _ _
    (containsStrGo_of_isPrefixOf _ _
      (List.isPrefixOf_iff_prefix.mpr (List.prefix_append lbl suf)))

theorem replaceAll_label_contains (p : Pat) (lbl : Str) (fuel : Nat)
    (prev : Option Char) (s : Str)
    (hf : (findFrom p prev s).isSome = true) (hfuel : 1 ≤ fuel) :
    containsStr (replaceAll p (fun _ => lbl) fuel prev s) lbl = true := by
  cases fuel with
  | zero => omega
  | succ n =>
      cases hfind : findFrom p prev s with
      | none => rw [hfind] at hf; exact Bool.noConfusion hf
      | some pmr =>
          obtain ⟨pre, m, rest⟩ := pmr
          cases hl : m.getLast? with
          | some lastc =>
              simp only [replaceAll, hfind, hl]
              exact containsStr_of_append pre lbl _
          | none =>
              cases rest with
              | nil =>
                  simp only [replaceAll, hfind, hl]
                  simpa using containsStr_of_append pre lbl []
              | cons x xs =>
                  simp only [replaceAll, hfind, hl]
                  rw [List.append_assoc, List.append_assoc]
                  exact containsStr_append_left pre _ _
                    (containsStrGo_of_isPrefixOf _ _
                      (List.isPrefixOf_iff_prefix.mpr
                        (List.prefix_append lbl _)))

/-- C5 (amended): if the input contains a valid OpenAI-style key match,
the Private-Key and AWS passes leave the input unchanged, the
GitHub/Google/Email/Phone passes leave the OpenAI-pass output unchanged,
and `[PHONE_REDACTED]` does not already occur in that output, then
`Sanitize`'s result contains `[OPENAI_KEY_REDACTED]` and not
`[PHONE_REDACTED]`.  (The original unconditional claim fails both ways:
a phone number elsewhere in the input adds `[PHONE_REDACTED]`, and an
earlier rule's match overlapping the key — e.g. an AWS key inside it —
can prevent `[OPENAI_KEY_REDACTED]` from appearing.) -/
theorem C5_rule_ordering (s : Str)
    (hkey : (findFrom openaiKeyPat none s).isSome = true)
    (h12 : sanitizeThrough s 2 = s)
    (hrest : Sanitize s = sanitizeThrough s 3)
    (hph : containsStr (sanitizeThrough s 3) "[PHONE_REDACTED]".data = false) :
    containsStr (Sanitize s) "[OPENAI_KEY_REDACTED]".data = true
    ∧ containsStr (Sanitize s) "[PHONE_REDACTED]".data = false := by
  have h3 : sanitizeThrough s 3 =
      sanitizeRule (sanitizeThrough s 2)
        ⟨"OpenAI API Key".data, openaiKeyPat, "[OPENAI_KEY_REDACTED]".data⟩ :=
    rfl
  constructor
  · rw [hrest, h3, h12]
    exact replaceAll_label_contains openaiKeyPat _ _ none s hkey (by omega)
  · rw [hrest]
    exact hph

/-- Witness for C5 at the spec's own scenario input
`key sk-proj-abcdef0123456789012345`. -/
theorem C5_rule_ordering_witness :
    containsStr (Sanitize "key sk-proj-abcdef0123456789012345".data)
      "[OPENAI_KEY_REDACTED]".data = true
    ∧ containsStr (Sanitize "key sk-proj-abcdef0123456789012345".data)
      "[PHONE_REDACTED]".data = false :=
  C5_rule_ordering "key sk-proj-abcdef0123456789012345".data
    (by decide) (by decide) (by decide) (by decide)

/-! ## C6: Mask determinism and (non-)idempotence -/

set_option maxRecDepth 4000 in
/-- C6 counterexample: re-masking a masked string can change it.  On
`AIzabbbbbbbbb 13800138000` the first pass tokenizes the phone number;
on the second pass the Google-key rule matches `AIza` + 9 chars + the 26
placeholder characters (its class `[0-9A-Za-z-_]` covers the whole
placeholder alphabet), so `Mask(v, Mask(v, s)) ≠ Mask(v, s)`. -/
theorem C6_counterexample :
    (Mask (Mask [] "AIzabbbbbbbbb 13800138000".data []).1
        ((Mask [] "AIzabbbbbbbbb 13800138000".data []).2) []).2 ≠
      (Mask [] "AIzabbbbbbbbb 13800138000".data []).2 := by
  decide

theorem maskRuleStep_nomatch (st : Vault × Str) (r : Rule)
    (h : findFrom r.pattern none st.2 = none) : maskRuleStep st r = st := by
  unfold maskRuleStep
  simp only [maskRuleStep.go, h]

theorem mask_fold_nomatch (rules : List Rule) (st : Vault × Str)
    (h : ∀ r ∈ rules, findFrom r.pattern none st.2 = none) :
    rules.foldl
      (fun st r => if ruleApplies [] r then maskRuleStep st r else st) st
      = st := by
  induction rules with
  | nil => rfl
  | cons r t ih =>
      rw [List.foldl_cons]
      have hstep : (if ruleApplies [] r then maskRuleStep st r else st) = st := by
        rw [maskRuleStep_nomatch st r (h r (by simp))]
        split <;> rfl
      rw [hstep]
      exact ih (fun q hq => h q (by simp [hq]))

/-- C6 (amended): the masked string is deterministic — unconditionally,
it does not depend on the vault at all (in particular for two empty
vaults); and masking is idempotent whenever no scanner rule matches the
masked output.  Unconditional idempotence fails: a rule match may span
raw text and an inserted placeholder (the Google-key rule's class
contains the whole placeholder alphabet), as the counterexample
shows. -/
theorem C6_mask_deterministic (v v' : Vault) (s : Str) (tags : List Str)
    (w : Vault) :
    (Mask v s tags).2 = (Mask v' s tags).2
    ∧ ((∀ r ∈ scannerRules, findFrom r.pattern none (Mask v s []).2 = none) →
        (Mask w ((Mask v s []).2) []).2 = (Mask v s []).2) := by
  constructor
  · exact mask_str_vault_indep v v' s tags
  · intro hm
    have h2 : Mask w ((Mask v s []).2) [] = (w, (Mask v s []).2) :=
      mask_fold_nomatch scannerRules (w, (Mask v s []).2) hm
    rw [h2]

set_option maxRecDepth 4000 in
/-- Witness for C6 on `Email: a@b.co`: determinism across two different
vaults and idempotence of the masked output. -/
theorem C6_mask_deterministic_witness :
    (Mask [] "Email: a@b.co".data []).2 =
      (Mask [("k".data, "v".data)] "Email: a@b.co".data []).2
    ∧ (Mask [] ((Mask [] "Email: a@b.co".data []).2) []).2 =
      (Mask [] "Email: a@b.co".data []).2 :=
  ⟨(C6_mask_deterministic [] [("k".data, "v".data)] "Email: a@b.co".data []
      []).1,
   (C6_mask_deterministic [] [("k".data, "v".data)] "Email: a@b.co".data []
      []).2 (by decide)⟩

/-! ## C8: field-map path lemmas -/

theorem fieldMapValue_kind (nc : Str → Str) (v : Json) :
    jsonKind (fieldMapValue nc v) = jsonKind v := by
  cases v <;> rfl

theorem fieldMapValue_nonnum (nc : Str → Str) (v : Json)
    (hv : ∀ lit, v ≠ .num lit) : fieldMapValue nc v = v := by
  cases v with
  | num lit => exact absurd rfl (hv lit)
  | _ => rfl

theorem fieldMapValue_num (nc : Str → Str) (lit : Str) :
    fieldMapValue nc (.num lit) = .num (nc lit) := rfl

theorem getPath_obj_some (ms : List (Str × Json)) (seg : Str)
    (rest : List Str) (x : Json)
    (h : (ms.find? (fun p => p.1 = seg)).map (·.2) = some x) :
    getPath (.obj ms) (seg :: rest) = getPath x rest := by
  show (match (ms.find? (fun p => p.1 = seg)).map (·.2) with
    | some v => getPath v rest
    | none => none) = getPath x rest
  rw [h]

theorem getPath_obj_none (ms : List (Str × Json)) (seg : Str)
    (rest : List Str)
    (h : (ms.find? (fun p => p.1 = seg)).map (·.2) = none) :
    getPath (.obj ms) (seg :: rest) = none := by
  show (match (ms.find? (fun p => p.1 = seg)).map (·.2) with
    | some v => getPath v rest
    | none => none) = none
  rw [h]

theorem getPath_arr_some (es : List Json) (seg : Str) (rest : List Str)
    (i : Nat) (x : Json) (hi : segIdx seg = some i) (hx : es.get? i = some x) :
    getPath (.arr es) (seg :: rest) = getPath x rest := by
  show (match segIdx seg with
    | some i =>
        match es.get? i with
        | some v => getPath v rest
        | none => none
    | none => none) = getPath x rest
  rw [hi]
  show (match es.get? i with
    | some v => getPath v rest
    | none => none) = getPath x rest
  rw [hx]

theorem getPath_arr_stuck (es : List Json) (seg : Str) (rest : List Str)
    (i : Nat) (hi : segIdx seg = some i) (hx : es.get? i = none) :
    getPath (.arr es) (seg :: rest) = none := by
  show (match segIdx seg with
    | some i =>
        match es.get? i with
        | some v => getPath v rest
        | none => none
    | none => none) = none
  rw [hi]
  show (match es.get? i with
    | some v => getPath v rest
    | none => none) = none
  rw [hx]

theorem getPath_arr_key (es : List Json) (seg : Str) (rest : List Str)
    (hi : segIdx seg = none) :
    getPath (.arr es) (seg :: rest) = none := by
  show (match segIdx seg with
    | some i =>
        match es.get? i with
        | some v => getPath v rest
        | none => none
    | none => none) = none
  rw [hi]

theorem setPath_obj (ms : List (Str × Json)) (seg : Str) (rest : List Str)
    (v : Json) :
    setPath (.obj ms) (seg :: rest) v =
      if ms.any (fun p => p.1 = seg) then
        .obj (setFirstField ms seg (fun old => setPath old rest v))
      else .obj (ms ++ [(seg, buildNew rest v)]) := rfl

theorem setPath_arr_set (es : List Json) (seg : Str) (rest : List Str)
    (v : Json) (i : Nat) (hi : segIdx seg = some i) (h : i < es.length) :
    setPath (.arr es) (seg :: rest) v =
      .arr (es.set i (setPath (es.get ⟨i, h⟩) rest v)) := by
  show (match segIdx seg with
    | some i =>
        if h : i < es.length then
          Json.arr (es.set i (setPath (es.get ⟨i, h⟩) rest v))
        else
          Json.arr (es ++ List.replicate (i - es.length) Json.null
            ++ [buildNew rest v])
    | none => Json.obj [(seg, buildNew rest v)]) = _
  rw [hi]
  show (if h : i < es.length then
      Json.arr (es.set i (setPath (es.get ⟨i, h⟩) rest v))
    else
      Json.arr (es ++ List.replicate (i - es.length) Json.null
        ++ [buildNew rest v])) = _
  rw [dif_pos h]

theorem setPath_arr_pad (es : List Json) (seg : Str) (rest : List Str)
    (v : Json) (i : Nat) (hi : segIdx seg = some i) (h : ¬ i < es.length) :
    setPath (.arr es) (seg :: rest) v =
      .arr (es ++ List.replicate (i - es.length) Json.null
        ++ [buildNew rest v]) := by
  show (match segIdx seg with
    | some i =>
        if h : i < es.length then
          Json.arr (es.set i (setPath (es.get ⟨i, h⟩) rest v))
        else
          Json.arr (es ++ List.replicate (i - es.length) Json.null
            ++ [buildNew rest v])
    | none => Json.obj [(seg, buildNew rest v)]) = _
  rw [hi]
  show (if h : i < es.length then
      Json.arr (es.set i (setPath (es.get ⟨i, h⟩) rest v))
    else
      Json.arr (es ++ List.replicate (i - es.length) Json.null
        ++ [buildNew rest v])) = _
  rw [dif_neg h]

theorem setPath_arr_key (es : List Json) (seg : Str) (rest : List Str)
    (v : Json) (hi : segIdx seg = none) :
    setPath (.arr es) (seg :: rest) v = .obj [(seg, buildNew rest v)] := by
  show (match segIdx seg with
    | some i =>
        if h : i < es.length then
          Json.arr (es.set i (setPath (es.get ⟨i, h⟩) rest v))
        else
          Json.arr (es ++ List.replicate (i - es.length) Json.null
            ++ [buildNew rest v])
    | none => Json.obj [(seg, buildNew rest v)]) = _
  rw [hi]

theorem find?_setFirstField_self (ms : List (Str × Json)) (seg : Str)
    (f : Json → Json) :
    (setFirstField ms seg f).find? (fun p => p.1 = seg) =
      (ms.find? (fun p => p.1 = seg)).map (fun p => (p.1, f p.2)) := by
  induction ms with
  | nil => rfl
  | cons p t ih =>
      obtain ⟨k, pv⟩ := p
      show (if k = seg then (k, f pv) :: t
          else (k, pv) :: setFirstField t seg f).find?
          (fun p => p.1 = seg) = _
      by_cases hp : k = seg
      · rw [if_pos hp, List.find?_cons_of_pos _ (by simpa using hp),
          List.find?_cons_of_pos _ (by simpa using hp)]
        rfl
      · rw [if_neg hp, List.find?_cons_of_neg _ (by simpa using hp),
          List.find?_cons_of_neg _ (by simpa using hp), ih]

theorem find?_setFirstField_ne (ms : List (Str × Json)) (seg : Str)
    (f : Json → Json) (a : Str) (hne : a ≠ seg) :
    (setFirstField ms seg f).find? (fun p => p.1 = a) =
      ms.find? (fun p => p.1 = a) := by
  induction ms with
  | nil => rfl
  | cons p t ih =>
      obtain ⟨k, pv⟩ := p
      show (if k = seg then (k, f pv) :: t
          else (k, pv) :: setFirstField t seg f).find?
          (fun p => p.1 = a) = _
      by_cases hp : k = seg
      · have hka : ¬ k = a := fun hh => hne (by rw [← hh, hp])
        rw [if_pos hp, List.find?_cons_of_neg _ (by simpa using hka),
          List.find?_cons_of_neg _ (by simpa using hka)]
      · rw [if_neg hp]
        by_cases hka : k = a
        · rw [List.find?_cons_of_pos _ (by simpa using hka),
            List.find?_cons_of_pos _ (by simpa using hka)]
        · rw [List.find?_cons_of_neg _ (by simpa using hka),
            List.find?_cons_of_neg _ (by simpa using hka), ih]

theorem getPath_nil (j : Json) : getPath j [] = some j := by
  cases j <;> rfl

theorem setPath_nil (j v : Json) : setPath j [] v = v := by
  cases j <;> rfl

theorem getPath_buildNew (p : List Str) (v : Json) :
    getPath (buildNew p v) p = some v := by
  induction p with
  | nil => exact getPath_nil v
  | cons seg rest ih =>
      show getPath (.obj [(seg, buildNew rest v)]) (seg :: rest) = some v
      rw [getPath_obj_some [(seg, buildNew rest v)] seg rest (buildNew rest v)
        (by rw [List.find?_cons_of_pos _ (by simp)]; rfl)]
      exact ih

theorem find?_some_of_any (ms : List (Str × Json)) (seg : Str)
    (hany : ms.any (fun p => p.1 = seg) = true) :
    ∃ q, ms.find? (fun p => p.1 = seg) = some q := by
  cases hf : ms.find? (fun p => p.1 = seg) with
  | some q => exact ⟨q, rfl⟩
  | none =>
      obtain ⟨p, hp, hpk⟩ := List.any_eq_true.mp hany
      rw [List.find?_eq_none] at hf
      exact absurd hpk (by simpa using hf p hp)

theorem getPath_setPath_self (p : List Str) :
    ∀ (j v : Json), getPath (setPath j p v) p = some v := by
  induction p with
  | nil => intro j v; rw [setPath_nil]; exact getPath_nil v
  | cons seg rest ih =>
      intro j v
      have hsingle : getPath (Json.obj [(seg, buildNew rest v)])
          (seg :: rest) = some v := getPath_buildNew (seg :: rest) v
      cases j with
      | obj ms =>
          rw [setPath_obj]
          by_cases hany : ms.any (fun p => p.1 = seg)
          · rw [if_pos hany]
            obtain ⟨q, hfq⟩ := find?_some_of_any ms seg hany
            rw [getPath_obj_some _ seg rest (setPath q.2 rest v)
              (by rw [find?_setFirstField_self, hfq]; rfl)]
            exact ih q.2 v
          · rw [if_neg hany]
            have hnone : ms.find? (fun p => p.1 = seg) = none :=
              List.find?_eq_none.mpr
                (fun x hx hpx => hany (List.any_eq_true.mpr ⟨x, hx, hpx⟩))
            rw [getPath_obj_some _ seg rest (buildNew rest v)
              (by rw [List.find?_append, hnone,
                List.find?_cons_of_pos _ (by simp)]; rfl)]
            exact getPath_buildNew rest v
      | arr es =>
          cases hseg : segIdx seg with
          | some i =>
              by_cases hlt : i < es.length
              · rw [setPath_arr_set es seg rest v i hseg hlt]
                rw [getPath_arr_some _ seg rest i
                    (setPath (es.get ⟨i, hlt⟩) rest v) hseg
                  (by rw [List.get?_eq_getElem?,
                    List.getElem?_set_self (by simpa using hlt)])]
                exact ih _ v
              · rw [setPath_arr_pad es seg rest v i hseg hlt]
                have hlen : (es ++ List.replicate (i - es.length)
                    Json.null).length = i := by
                  simp only [List.length_append, List.length_replicate]
                  omega
                rw [getPath_arr_some _ seg rest i (buildNew rest v) hseg
                  (by
                    have hc := List.get?_concat_length
                      (es ++ List.replicate (i - es.length) Json.null)
                      (buildNew rest v)
                    rw [hlen] at hc
                    exact hc)]
                exact getPath_buildNew rest v
          | none =>
              rw [setPath_arr_key es seg rest v hseg]
              exact hsingle
      | null => exact hsingle
      | bool b => exact hsingle
      | num l => exact hsingle
      | str s => exact hsingle

theorem get?_some_lt {es : List Json} {i : Nat} {x : Json}
    (h : es.get? i = some x) : i < es.length := by
  obtain ⟨hlt, _⟩ := List.get?_eq_some.mp h
  exact hlt

/-- Writing at a path that diverges compatibly from `t` preserves the
value readable at `t`. -/
theorem getPath_setPath_other (t : List Str) :
    ∀ (t2 : List Str) (buf w v' : Json),
      getPath buf t = some w → pathIndepB t t2 = true →
      getPath (setPath buf t2 v') t = some w := by
  induction t with
  | nil =>
      intro t2 buf w v' hg hind
      cases t2 with
      | nil => exact Bool.noConfusion hind
      | cons b bs => exact Bool.noConfusion hind
  | cons a as ih =>
      intro t2 buf w v' hg hind
      cases t2 with
      | nil => exact Bool.noConfusion hind
      | cons b bs =>
          have hind2 : segCompatB a b = true
              ∨ (a = b ∧ pathIndepB as bs = true) := by
            unfold pathIndepB at hind
            have hind3 : segCompatB a b = true
                ∨ (decide (a = b) && pathIndepB as bs) = true := by
              simpa using hind
            rcases hind3 with h1 | h2
            · exact Or.inl h1
            · have h3 : decide (a = b) = true ∧ pathIndepB as bs = true := by
                simpa using h2
              exact Or.inr ⟨of_decide_eq_true h3.1, h3.2⟩
          cases buf with
          | null =>
              rw [show getPath Json.null (a :: as) = none from rfl] at hg
              exact Option.noConfusion hg
          | bool x =>
              rw [show getPath (Json.bool x) (a :: as) = none from rfl] at hg
              exact Option.noConfusion hg
          | num l =>
              rw [show getPath (Json.num l) (a :: as) = none from rfl] at hg
              exact Option.noConfusion hg
          | str s =>
              rw [show getPath (Json.str s) (a :: as) = none from rfl] at hg
              exact Option.noConfusion hg
          | obj ms =>
              cases hf : (ms.find? (fun p => p.1 = a)).map (·.2) with
              | none =>
                  rw [getPath_obj_none ms a as hf] at hg
                  exact Option.noConfusion hg
              | some sub =>
                  rw [getPath_obj_some ms a as sub hf] at hg
                  rw [setPath_obj]
                  by_cases hany : ms.any (fun p => p.1 = b)
                  · rw [if_pos hany]
                    rcases hind2 with hcompat | ⟨hab, hrest⟩
                    · have habne : a ≠ b := by
                        unfold segCompatB at hcompat
                        have h3 : decide (a ≠ b) = true := by
                          simpa using (Bool.and_elim_left hcompat)
                        exact of_decide_eq_true h3
                      rw [getPath_obj_some _ a as sub
                        (by rw [find?_setFirstField_ne _ _ _ _ habne]
                            exact hf)]
                      exact hg
                    · subst hab
                      cases hfq : ms.find? (fun p => p.1 = a) with
                      | none => rw [hfq] at hf; exact Option.noConfusion hf
                      | some q =>
                          rw [hfq] at hf
                          have hsub : q.2 = sub := Option.some.inj hf
                          rw [getPath_obj_some _ a as (setPath q.2 bs v')
                            (by rw [find?_setFirstField_self, hfq]; rfl)]
                          rw [hsub]
                          exact ih bs sub w v' hg hrest
                  · rw [if_neg hany]
                    cases hfq : ms.find? (fun p => p.1 = a) with
                    | none => rw [hfq] at hf; exact Option.noConfusion hf
                    | some q =>
                        rw [hfq] at hf
                        rw [getPath_obj_some _ a as sub
                          (by rw [List.find?_append, hfq]; exact hf)]
                        exact hg
          | arr es =>
              cases hia : segIdx a with
              | none =>
                  rw [getPath_arr_key es a as hia] at hg
                  exact Option.noConfusion hg
              | some i =>
                  cases hei : es.get? i with
                  | none =>
                      rw [getPath_arr_stuck es a as i hia hei] at hg
                      exact Option.noConfusion hg
                  | some sub =>
                      rw [getPath_arr_some es a as i sub hia hei] at hg
                      cases hib : segIdx b with
                      | none =>
                          rcases hind2 with hcompat | ⟨hab, _⟩
                          · unfold segCompatB at hcompat
                            rw [hia, hib] at hcompat
                            simp at hcompat
                          · subst hab
                            rw [hia] at hib
                            exact Option.noConfusion hib
                      | some i2 =>
                          rcases hind2 with hcompat | ⟨hab, hrest⟩
                          · have hii : i ≠ i2 := by
                              unfold segCompatB at hcompat
                              rw [hia, hib] at hcompat
                              have h3 : decide (i ≠ i2) = true :=
                                Bool.and_elim_right hcompat
                              exact of_decide_eq_true h3
                            by_cases hlt : i2 < es.length
                            · rw [setPath_arr_set es b bs v' i2 hib hlt]
                              rw [getPath_arr_some _ a as i sub hia
                                (by rw [List.get?_eq_getElem?,
                                  List.getElem?_set_ne (Ne.symm hii),
                                  ← List.get?_eq_getElem?]
                                    exact hei)]
                              exact hg
                            · rw [setPath_arr_pad es b bs v' i2 hib hlt]
                              have hilt : i < es.length := get?_some_lt hei
                              rw [getPath_arr_some _ a as i sub hia
                                (by rw [List.get?_eq_getElem?,
                                  List.getElem?_append_left
                                    (by simp only [List.length_append,
                                      List.length_replicate]; omega),
                                  List.getElem?_append_left hilt,
                                  ← List.get?_eq_getElem?]
                                    exact hei)]
                              exact hg
                          · subst hab
                            have hilt : i < es.length := get?_some_lt hei
                            have hget : es.get ⟨i, hilt⟩ = sub := by
                              have := List.get?_eq_get hilt
                              rw [hei] at this
                              exact (Option.some.inj this).symm
                            rw [setPath_arr_set es a bs v' i hia hilt]
                            rw [getPath_arr_some _ a as i
                                (setPath (es.get ⟨i, hilt⟩) bs v') hia
                              (by rw [List.get?_eq_getElem?,
                                List.getElem?_set_self
                                  (by simpa using hilt)])]
                            rw [hget]
                            exact ih bs sub w v' hg hrest

theorem fmFold_keeps (nc : Str → Str) (jb : Json) (t : List Str) (w : Json)
    (post : List (Str × Str)) :
    ∀ (j : Json), getPath j t = some w →
      (∀ e ∈ post, pathIndepB t (splitPath e.1) = true) →
      ∃ jout, post.foldl (fmStep nc jb) (some j) = some jout
        ∧ getPath jout t = some w := by
  induction post with
  | nil => intro j hg _; exact ⟨j, rfl, hg⟩
  | cons e rest ih =>
      intro j hg hpost
      rw [List.foldl_cons]
      cases hsrc : getPath jb (splitPath e.2) with
      | none =>
          have hstep : fmStep nc jb (some j) e = some j := by
            unfold fmStep
            rw [hsrc]
          rw [hstep]
          exact ih j hg (fun q hq => hpost q (by simp [hq]))
      | some v =>
          have hstep : fmStep nc jb (some j) e =
              some (setPath j (splitPath e.1) (fieldMapValue nc v)) := by
            unfold fmStep
            rw [hsrc]
            rfl
          rw [hstep]
          exact ih _
            (getPath_setPath_other t (splitPath e.1) j w _ hg
              (hpost e (by simp)))
            (fun q hq => hpost q (by simp [hq]))

theorem fmFold_filter (nc : Str → Str) (jb : Json) (cfg : List (Str × Str)) :
    ∀ acc, cfg.foldl (fmStep nc jb) acc =
      (cfg.filter (fun e => (getPath jb (splitPath e.2)).isSome)).foldl
        (fmStep nc jb) acc := by
  induction cfg with
  | nil => intro acc; rfl
  | cons e rest ih =>
      intro acc
      rw [List.foldl_cons]
      cases hsrc : getPath jb (splitPath e.2) with
      | none =>
          have hstep : fmStep nc jb acc e = acc := by
            unfold fmStep
            rw [hsrc]
          have hfil : (e :: rest).filter
              (fun e => (getPath jb (splitPath e.2)).isSome) =
              rest.filter (fun e => (getPath jb (splitPath e.2)).isSome) := by
            rw [List.filter_cons_of_neg]
            simp [hsrc]
          rw [hstep, hfil, ih]
      | some v =>
          have hfil : (e :: rest).filter
              (fun e => (getPath jb (splitPath e.2)).isSome) =
              e :: rest.filter
                (fun e => (getPath jb (splitPath e.2)).isSome) := by
            rw [List.filter_cons_of_pos]
            simp [hsrc]
          rw [hfil, List.foldl_cons, ih]

/-- C8: for a `field_map` entry `(target, source)` whose source exists
in the original step input, and whose target no later entry disturbs,
the output buffer holds the type-dispatched source value at the target:
strings stay strings (exactly), booleans stay booleans (exactly),
objects/arrays/null are copied as the source subtree (equal canonical
form), and a numeric source yields a numeric target whose literal is
the float64 round-trip `nc` of the source literal (so the JSON kind is
always preserved, and every non-number value is preserved exactly).
Entries with a missing source are skipped silently (the fold equals the
fold over the filtered config) and the step never returns an error. -/
theorem C8_field_map (nc : Str → Str) (body : Str) (jb : Json)
    (cfg pre post : List (Str × Str)) (t s : Str) (v : Json)
    (hparse : parseJson body = some jb)
    (hcfg : cfg = pre ++ (t, s) :: post)
    (hsrc : getPath jb (splitPath s) = some v)
    (hpost : ∀ e ∈ post, pathIndepB (splitPath t) (splitPath e.1) = true) :
    (∃ jout, applyFieldMapTransform nc body cfg = .ok (render jout)
      ∧ getPath jout (splitPath t) = some (fieldMapValue nc v)
      ∧ jsonKind (fieldMapValue nc v) = jsonKind v
      ∧ ((∀ lit, v ≠ .num lit) → fieldMapValue nc v = v)
      ∧ (∀ lit, v = .num lit → fieldMapValue nc v = .num (nc lit)))
    ∧ (∀ cfg2 : List (Str × Str),
        applyFieldMapTransform nc body cfg2 =
          applyFieldMapTransform nc body
            (cfg2.filter (fun e => (getPath jb (splitPath e.2)).isSome))) := by
  constructor
  · have hmid : fmStep nc jb (pre.foldl (fmStep nc jb) none) (t, s) =
        some (setPath ((pre.foldl (fmStep nc jb) none).getD jb) (splitPath t)
          (fieldMapValue nc v)) := by
      show (match getPath jb (splitPath s) with
        | none => pre.foldl (fmStep nc jb) none
        | some v => some (setPath ((pre.foldl (fmStep nc jb) none).getD jb)
            (splitPath t) (fieldMapValue nc v))) = _
      rw [hsrc]
    obtain ⟨jout, hfold, hget⟩ := fmFold_keeps nc jb (splitPath t)
      (fieldMapValue nc v) post
      (setPath ((pre.foldl (fmStep nc jb) none).getD jb) (splitPath t)
        (fieldMapValue nc v))
      (getPath_setPath_self (splitPath t) _ (fieldMapValue nc v)) hpost
    refine ⟨jout, ?_, hget, fieldMapValue_kind nc v,
      fieldMapValue_nonnum nc v, fun lit hlit => by subst hlit; rfl⟩
    have hfoldall : cfg.foldl (fmStep nc jb) none = some jout := by
      rw [hcfg, List.foldl_append, List.foldl_cons, hmid]
      exact hfold
    simp only [applyFieldMapTransform, hparse, hfoldall]
  · intro cfg2
    simp only [applyFieldMapTransform, hparse]
    rw [← fmFold_filter nc jb cfg2 none]

/-- Witness for C8: map `messages.0.content` (a string) into
`inputs.query`, with a later independent entry, for a concrete float64
conversion argument. -/
theorem C8_field_map_witness :
    (∃ jout, applyFieldMapTransform (fun l => l)
        "\x7b\"messages\":[\x7b\"content\":\"hi\"\x7d],\"n\":5\x7d".data
        [("inputs.query".data, "messages.0.content".data),
         ("top".data, "n".data)] = .ok (render jout)
      ∧ getPath jout (splitPath "inputs.query".data) =
          some (fieldMapValue (fun l => l) (.str "hi".data))
      ∧ jsonKind (fieldMapValue (fun l => l) (.str "hi".data)) =
          jsonKind (.str "hi".data)
      ∧ ((∀ lit, (Json.str "hi".data) ≠ .num lit) →
          fieldMapValue (fun l => l) (.str "hi".data) = .str "hi".data)
      ∧ (∀ lit, (Json.str "hi".data) = .num lit →
          fieldMapValue (fun l => l) (.str "hi".data) = .num lit))
    ∧ (∀ cfg2 : List (Str × Str),
        applyFieldMapTransform (fun l => l)
          "\x7b\"messages\":[\x7b\"content\":\"hi\"\x7d],\"n\":5\x7d".data cfg2 =
        applyFieldMapTransform (fun l => l)
          "\x7b\"messages\":[\x7b\"content\":\"hi\"\x7d],\"n\":5\x7d".data
          (cfg2.filter (fun e =>
            (getPath (.obj [("messages".data,
                .arr [.obj [("content".data, .str "hi".data)]]),
              ("n".data, .num ['5'])])
              (splitPath e.2)).isSome))) :=
  C8_field_map (fun l => l)
    "\x7b\"messages\":[\x7b\"content\":\"hi\"\x7d],\"n\":5\x7d".data
    (.obj [("messages".data, .arr [.obj [("content".data, .str "hi".data)]]),
      ("n".data, .num ['5'])])
    [("inputs.query".data, "messages.0.content".data), ("top".data, "n".data)]
    [] [("top".data, "n".data)] "inputs.query".data "messages.0.content".data
    (.str "hi".data) rfl rfl rfl (by decide)

/-! ## C1 machinery: characterizing the placeholder-pattern matcher -/

end AIGis
